import Mathlib

/-!
# music.c: drum voice, pattern sequencer and buffered sink

A shallow embedding of `src/music.c`.

* `float` is read as an ordered field `α` (the theorems about the numerics
  take `α := ℝ`); `sin`, `exp` and `M_PI` of `<math.h>` are the fields of
  `Libm`, so every definition below stays executable.
* `int` is read as `Int`: the counters of the program only count frames and
  samples, and the one product, `numChannels * bufferSize`, is taken to fit.
* Pointers are read as addresses: an index into the event array for
  `Pattern.s`, an address of a `Drum` for `FrameBuilder.ud`, `none` for `NULL`.
* An operation whose C behaviour is undefined (a read past the event array, a
  call through a `NULL` table, a write outside the sample buffer) returns
  `none`.
-/

namespace Music

/-! ## Numeric helpers -/

/-- The part of `<math.h>` the program uses. -/
structure Libm (α : Type) where
  sin : α → α
  exp : α → α
  M_PI : α

section Defs

variable {α : Type} [LinearOrderedField α]

/-- `#define TWO_PI (2.0 * M_PI)` -/
def TWO_PI (m : Libm α) : α := 2 * m.M_PI

/-- `inline float minf(float a, float b) { return a < b ? a : b; }` -/
def minf (a b : α) : α := if a < b then a else b

/-- `inline float maxf(float a, float b) { return a > b ? a : b; }` -/
def maxf (a b : α) : α := if a > b then a else b

/-- `inline float clampf(float a, float b, float c) { return maxf(a, minf(b, c)); }` -/
def clampf (a b c : α) : α := maxf a (minf b c)

/-- `#define SAMPLE_RATE 44100` -/
def SAMPLE_RATE : Int := 44100

/-- `float white_noise() { return 2.0f * ((float)rand() / (float)RAND_MAX) - 1.0f; }`
with the value `r` returned by `rand()` passed in. -/
def white_noise (RAND_MAX : Nat) (r : Nat) : α := 2 * ((r : α) / (RAND_MAX : α)) - 1

/-! ## Drum voice -/

/-- `typedef struct { float left, right; } Frame;` -/
structure Frame (α : Type) where
  left : α
  right : α

/-- `typedef struct { float amplitude, envDecay, frequency, freqDecay, noiseAmount,
noiseDecay, limit, phase; } Drum;` -/
structure Drum (α : Type) where
  amplitude : α
  envDecay : α
  frequency : α
  freqDecay : α
  noiseAmount : α
  noiseDecay : α
  limit : α
  phase : α

/-- `void Drum_start(Drum *bd) { bd->phase = 0.0f; }` -/
def Drum_start (bd : Drum α) : Drum α := { bd with phase := 0 }

/-- `Frame Drum_next(Drum *bd, float sampleRate, int f)`: returns the frame and the
updated drum. `wn1` and `wn2` are the values of the first and the second call of
`white_noise()`. -/
def Drum_next (m : Libm α) (bd : Drum α) (sampleRate : α) (f : Int) (wn1 wn2 : α) :
    Frame α × Drum α :=
  let tone := m.sin bd.phase * (1 - bd.noiseAmount)
  let v_envelope := m.exp (-bd.envDecay * (f : α) / sampleRate)
  let n_envelope := m.exp (-bd.noiseDecay * (f : α) / sampleRate)
  let na := bd.noiseAmount * wn1 * n_envelope
  let nb := bd.noiseAmount * wn2 * n_envelope
  let n := (7 / 10) * (na + nb)
  let currentFrequency := bd.frequency * m.exp (-bd.freqDecay * (f : α) / sampleRate)
  let phase1 := bd.phase + TWO_PI m * currentFrequency / sampleRate
  let phase2 := if phase1 ≥ TWO_PI m then phase1 - TWO_PI m else phase1
  ({ left := clampf (-bd.limit) bd.limit (bd.amplitude * v_envelope * (tone + n + na * (3 / 10)))
     right := clampf (-bd.limit) bd.limit (bd.amplitude * v_envelope * (tone + n + nb * (3 / 10))) },
   { bd with phase := phase2 })

/-- A run of `Drum_next` calls on one drum with a fixed sample rate: each entry of
`calls` holds the elapsed frame count and the two noise draws of one call. Returns
the drum after the last call. -/
def Drum_run (m : Libm α) (sampleRate : α) : Drum α → List (Int × α × α) → Drum α
  | bd, [] => bd
  | bd, (f, wn1, wn2) :: rest => Drum_run m sampleRate (Drum_next m bd sampleRate f wn1 wn2).2 rest

/-! ## Buffered sink -/

/-- The libsndfile side of the sink: `writes` holds the blocks handed to
`sf_write_float`, in call order; `diagnostics` counts the error strings printed
with `puts`; `closed` is set by `sf_close`. -/
structure Stream (α : Type) where
  writes : List (List α)
  diagnostics : Nat
  closed : Bool

/-- `typedef struct { SNDFILE *file; float *buffer; int bufferSize; int in_buffer; }
SongWriter;` with `buffer` the allocated block of floats (empty once freed). -/
structure SongWriter (α : Type) where
  file : Option Nat
  buffer : List α
  bufferSize : Int
  in_buffer : Int

/-- `sf_write_float(file, buffer, items)` of libsndfile: the stream is handed the
block `block` and answers with a number of accepted samples. The answer is not
decided by the program: `answer j n` is what the stream answers to call number `j`
when handed `n` samples. -/
def sf_write_float (answer : Nat → Nat → Int) (out : Stream α) (block : List α) :
    Int × Stream α :=
  (answer out.writes.length block.length, { out with writes := out.writes ++ [block] })

/-- `SongWriter SongWriter_create(const char *file, int numChannels, int bufferSize)`.
`handle` is what `sf_open` returns; `uninit` is the content of the block `malloc`
returns. -/
def SongWriter_create (handle : Option Nat) (uninit : Nat → α) (numChannels bufferSize : Int) :
    SongWriter α × Stream α :=
  ({ file := handle
     buffer := (List.range (numChannels * bufferSize).toNat).map uninit
     bufferSize := numChannels * bufferSize
     in_buffer := 0 },
   { writes := [], diagnostics := 0, closed := false })

/-- `void SongWriter_flush(SongWriter *w)`. Handing over more samples than the
buffer holds is a read outside the buffer. -/
def SongWriter_flush (answer : Nat → Nat → Int) (w : SongWriter α) (out : Stream α) :
    Option (SongWriter α × Stream α) :=
  if w.in_buffer ≤ 0 then some (w, out)
  else if w.in_buffer ≤ (w.buffer.length : Int) then
    let r := sf_write_float answer out (w.buffer.take w.in_buffer.toNat)
    let out2 : Stream α :=
      if r.1 ≠ w.in_buffer then { r.2 with diagnostics := r.2.diagnostics + 1 } else r.2
    some ({ w with in_buffer := 0 }, out2)
  else none

/-- `void SongWriter_add_frame(SongWriter *w, Frame f)`. A store outside the buffer
is undefined. -/
def SongWriter_add_frame (answer : Nat → Nat → Int) (w : SongWriter α) (out : Stream α)
    (f : Frame α) : Option (SongWriter α × Stream α) :=
  if 0 ≤ w.in_buffer ∧ w.in_buffer + 1 < (w.buffer.length : Int) then
    let buffer1 := w.buffer.set w.in_buffer.toNat f.left
    let buffer2 := buffer1.set (w.in_buffer + 1).toNat f.right
    let w1 : SongWriter α := { w with buffer := buffer2, in_buffer := w.in_buffer + 2 }
    if w1.in_buffer = w1.bufferSize then SongWriter_flush answer w1 out else some (w1, out)
  else none

/-- `void SongWriter_dispose(SongWriter *w)`. -/
def SongWriter_dispose (answer : Nat → Nat → Int) (w : SongWriter α) (out : Stream α) :
    Option (SongWriter α × Stream α) :=
  match SongWriter_flush answer w out with
  | none => none
  | some (w1, out1) =>
    some ({ w1 with buffer := [], bufferSize := 0, file := none }, { out1 with closed := true })

/-- Pushes the frames of a list, in order, with `SongWriter_add_frame`. -/
def SongWriter_add_frames (answer : Nat → Nat → Int) :
    SongWriter α → Stream α → List (Frame α) → Option (SongWriter α × Stream α)
  | w, out, [] => some (w, out)
  | w, out, f :: rest =>
    match SongWriter_add_frame answer w out f with
    | none => none
    | some (w1, out1) => SongWriter_add_frames answer w1 out1 rest

/-- One call a client of the sink can make between creation and disposal. -/
inductive SinkOp (α : Type) where
  | add_frame (f : Frame α)
  | flush

/-- Performs a list of sink calls in order. -/
def SongWriter_run (answer : Nat → Nat → Int) :
    SongWriter α → Stream α → List (SinkOp α) → Option (SongWriter α × Stream α)
  | w, out, [] => some (w, out)
  | w, out, SinkOp.add_frame f :: rest =>
    match SongWriter_add_frame answer w out f with
    | none => none
    | some (w1, out1) => SongWriter_run answer w1 out1 rest
  | w, out, SinkOp.flush :: rest =>
    match SongWriter_flush answer w out with
    | none => none
    | some (w1, out1) => SongWriter_run answer w1 out1 rest

/-- The interleaved samples of a list of frames: left, right, left, right, ... -/
def interleave : List (Frame α) → List α
  | [] => []
  | f :: rest => f.left :: f.right :: interleave rest

/-- The samples waiting in the buffer of the sink. -/
def pending (w : SongWriter α) : List α := w.buffer.take w.in_buffer.toNat

/-- A sink of capacity `C` between two calls: the buffer holds `C` floats, the
`bufferSize` field is `C`, and the fill count is even and below `C`. -/
def SinkInv (C : Nat) (w : SongWriter α) : Prop :=
  w.buffer.length = C ∧ w.bufferSize = (C : Int) ∧ 0 ≤ w.in_buffer ∧ w.in_buffer < (C : Int) ∧
    2 ∣ w.in_buffer ∧ 2 ∣ C

/-! ## Pattern sequencer -/

/-- The memory the voices live in: the `Drum` objects by address, and the number
of `rand()` calls made so far. -/
structure World (α : Type) where
  drums : Nat → Drum α
  rand_calls : Nat

/-- `typedef struct { void (*start)(void *ud); Frame (*next)(void *ud, float sampleRate,
int f); } FrameBuilderDefinition;` Both functions act on the memory; `none` is a
call that faults (a `NULL` user-data pointer). -/
structure FrameBuilderDefinition (α : Type) where
  start : World α → Option Nat → Option (World α)
  next : World α → Option Nat → α → Int → Option (Frame α × World α)

/-- `FrameBuilderDefinition *FrameBuilder_drum = &(FrameBuilderDefinition){Drum_start,
Drum_next};` `rand j` is the value of call number `j` of `rand()`. -/
def FrameBuilder_drum (m : Libm α) (RAND_MAX : Nat) (rand : Nat → Nat) :
    FrameBuilderDefinition α where
  start := fun w ud =>
    match ud with
    | none => none
    | some a =>
      some { w with drums := fun b => if b = a then Drum_start (w.drums a) else w.drums b }
  next := fun w ud sampleRate f =>
    match ud with
    | none => none
    | some a =>
      let r := Drum_next m (w.drums a) sampleRate f
        (white_noise RAND_MAX (rand w.rand_calls)) (white_noise RAND_MAX (rand (w.rand_calls + 1)))
      some (r.1, { drums := fun b => if b = a then r.2 else w.drums b
                   rand_calls := w.rand_calls + 2 })

/-- `typedef struct { FrameBuilderDefinition *tab; void *ud; } FrameBuilder;` -/
structure FrameBuilder (α : Type) where
  tab : Option (FrameBuilderDefinition α)
  ud : Option Nat

/-- `typedef struct { int frame; FrameBuilder fb; } Sample;` -/
structure Sample (α : Type) where
  frame : Int
  fb : FrameBuilder α

/-- `typedef struct { Sample *s; int frame; } Pattern;` with `s` the index of the
event the pointer is on. -/
structure Pattern where
  s : Nat
  frame : Int
deriving DecidableEq, Repr

/-- A call `Pattern_next_frame` makes through the table of event number `k`:
`start(ud)`, or `next(ud, SAMPLE_RATE, f)`. -/
inductive Call where
  | start (k : Nat)
  | next (k : Nat) (f : Int)
deriving DecidableEq, Repr

/-- Everything a call of `Pattern_next_frame` can change: the pattern, the memory
of the voices, and the record of the calls made through the tables so far. -/
structure Machine (α : Type) where
  p : Pattern
  world : World α
  calls : List Call

/-- The last statement of `Pattern_next_frame`:
`return p->s->fb.tab->next(p->s->fb.ud, SAMPLE_RATE, p->frame++);` -/
def Pattern_render (samples : List (Sample α)) (st : Machine α) : Option (Frame α × Machine α) :=
  match samples[st.p.s]? with
  | none => none
  | some cur =>
    match cur.fb.tab with
    | none => none
    | some tab =>
      match tab.next st.world cur.fb.ud (SAMPLE_RATE : α) st.p.frame with
      | none => none
      | some (fr, w) =>
        some (fr, { p := { st.p with frame := st.p.frame + 1 }
                    world := w
                    calls := st.calls ++ [Call.next st.p.s st.p.frame] })

/-- `Frame Pattern_next_frame(Pattern *p, int i)` over the event array `samples`. -/
def Pattern_next_frame (samples : List (Sample α)) (st : Machine α) (i : Int) :
    Option (Frame α × Machine α) :=
  match samples[st.p.s]? with
  | none => none
  | some cur =>
    if i < cur.frame then some (⟨0, 0⟩, st)
    else
      match samples[st.p.s + 1]? with
      | none => none
      | some nxt =>
        if i ≥ nxt.frame then
          match nxt.fb.tab with
          | none => some (⟨0, 0⟩, { st with p := { st.p with s := st.p.s + 1 } })
          | some tab =>
            match tab.start st.world nxt.fb.ud with
            | none => none
            | some w =>
              Pattern_render samples
                { p := { s := st.p.s + 1, frame := 0 }
                  world := w
                  calls := st.calls ++ [Call.start (st.p.s + 1)] }
        else Pattern_render samples st

/-- Calls `Pattern_next_frame` with the `n` consecutive ticks `i, i + 1, ...`;
returns the frames and the machine after the last call. -/
def Pattern_run (samples : List (Sample α)) :
    Machine α → Int → Nat → Option (List (Frame α) × Machine α)
  | st, _, 0 => some ([], st)
  | st, i, n + 1 =>
    match Pattern_next_frame samples st i with
    | none => none
    | some (fr, st1) =>
      match Pattern_run samples st1 (i + 1) n with
      | none => none
      | some (frs, st2) => some (fr :: frs, st2)

/-- `Pattern p = (Pattern){samples, 0};` with nothing called yet. -/
def Pattern_init (w : World α) : Machine α :=
  { p := { s := 0, frame := 0 }, world := w, calls := [] }

/-- The offset of event number `k` (0 outside the array). -/
def offset (samples : List (Sample α)) (k : Nat) : Int :=
  match samples[k]? with
  | none => 0
  | some e => e.frame

/-- The event array ends with a sentinel (an event without table) and every event
before it has a table. -/
def SentinelTerminated (samples : List (Sample α)) : Prop :=
  (samples.getLast?.map fun e => e.fb.tab.isNone) = some true ∧
  (samples.dropLast.all fun e => e.fb.tab.isSome) = true

/-- The offsets of the events increase strictly along the array. -/
def StrictOffsets (samples : List (Sample α)) : Prop :=
  (samples.map fun e => e.frame).Pairwise (· < ·)

/-- The offsets of the events do not decrease along the array. -/
def MonotoneOffsets (samples : List (Sample α)) : Prop :=
  (samples.map fun e => e.frame).Pairwise (· ≤ ·)

/-- The `start` and `next` functions of every event that has a table return on the
user data of that event, whatever the memory and the arguments. -/
def VoicesReturn (samples : List (Sample α)) : Prop :=
  ∀ e ∈ samples, ∀ tab, e.fb.tab = some tab →
    (∀ w, (tab.start w e.fb.ud).isSome = true) ∧
    (∀ w sampleRate f, (tab.next w e.fb.ud sampleRate f).isSome = true)

/-- The event array of the sequencer example: `[{0, A}, {10, B}, {20, sentinel}]`,
with the voices `A` and `B` at the addresses 0 and 1. -/
def exampleEvents (tab : FrameBuilderDefinition α) : List (Sample α) :=
  [⟨0, ⟨some tab, some 0⟩⟩, ⟨10, ⟨some tab, some 1⟩⟩, ⟨20, ⟨none, none⟩⟩]

/-! ## Named parts of `Drum_next` -/

/-- `const float v_envelope = exp(-bd->envDecay * f / sampleRate);` of `Drum_next`. -/
def v_envelope (m : Libm α) (bd : Drum α) (sampleRate : α) (f : Int) : α :=
  m.exp (-bd.envDecay * (f : α) / sampleRate)

/-- `const float n_envelope = exp(-bd->noiseDecay * f / sampleRate);` of `Drum_next`. -/
def n_envelope (m : Libm α) (bd : Drum α) (sampleRate : α) (f : Int) : α :=
  m.exp (-bd.noiseDecay * (f : α) / sampleRate)

/-- `const float currentFrequency = bd->frequency * exp(-bd->freqDecay * f / sampleRate);`
of `Drum_next`. -/
def currentFrequency (m : Libm α) (bd : Drum α) (sampleRate : α) (f : Int) : α :=
  bd.frequency * m.exp (-bd.freqDecay * (f : α) / sampleRate)

/-- The amount `TWO_PI * currentFrequency / sampleRate` that
`bd->phase += TWO_PI * currentFrequency / sampleRate;` adds to the phase. -/
def phase_advance (m : Libm α) (bd : Drum α) (sampleRate : α) (f : Int) : α :=
  TWO_PI m * currentFrequency m bd sampleRate f / sampleRate

/-- The sum of the phase advances of a list of `Drum_next` calls, with nothing taken
off: the phase an oscillator that never wraps would hold after a start. -/
def unwrapped_phase (m : Libm α) (bd : Drum α) (sampleRate : α) : List (Int × α × α) → α
  | [] => 0
  | c :: rest => phase_advance m bd sampleRate c.1 + unwrapped_phase m bd sampleRate rest

/-! ## Drivers of the sequencer -/

/-- Calls `Pattern_next_frame` with the ticks of a list, whatever their values, in
order; returns the frames and the machine after the last call. -/
def Pattern_run_ticks (samples : List (Sample α)) :
    Machine α → List Int → Option (List (Frame α) × Machine α)
  | st, [] => some ([], st)
  | st, i :: rest =>
    match Pattern_next_frame samples st i with
    | none => none
    | some (fr, st1) =>
      match Pattern_run_ticks samples st1 rest with
      | none => none
      | some (frs, st2) => some (fr :: frs, st2)

/-- The event whose table a recorded call went through. -/
def Call.event : Call → Nat
  | Call.start k => k
  | Call.next k _ => k

/-- Tells the `next` calls from the `start` calls. -/
def Call.isNext : Call → Bool
  | Call.start _ => false
  | Call.next _ _ => true

/-- The condition `p.s && p.s->fb.ud && p.s->fb.ud` of the inner loop of `main`
(`p.s` is never `NULL`); reading the event at the cursor faults outside the array. -/
def main_guard (samples : List (Sample α)) (st : Machine α) : Option Bool :=
  match samples[st.p.s]? with
  | none => none
  | some e => some e.fb.ud.isSome

/-- The inner loop of `main`,
`for (int i = 0; p.s && p.s->fb.ud && p.s->fb.ud; ++i) { Frame f = Pattern_next_frame(&p, i);
SongWriter_add_frame(&w, f); ... }`, from tick `i`, for at most `fuel` calls of
`Pattern_next_frame`. `sweep i` is what the rest of the body does to the memory of
the voices after the call with tick `i` (the parameter sweep). Returns the frames
handed to `SongWriter_add_frame` in order, the machine, and whether the loop has
ended (`false`: the condition still holds and the calls allowed are used up). -/
def main_loop (samples : List (Sample α)) (sweep : Int → World α → World α) :
    Nat → Machine α → Int → Option (List (Frame α) × Machine α × Bool)
  | 0, st, _ =>
    match main_guard samples st with
    | none => none
    | some g => some ([], st, !g)
  | fuel + 1, st, i =>
    match main_guard samples st with
    | none => none
    | some false => some ([], st, true)
    | some true =>
      match Pattern_next_frame samples st i with
      | none => none
      | some (fr, st1) =>
        match main_loop samples sweep fuel { st1 with world := sweep i st1.world } (i + 1) with
        | none => none
        | some (frs, st2, done) => some (fr :: frs, st2, done)

/-- The loop condition of `main` tells the events with a voice from the sentinel:
an event has user data exactly when it has a table (`{FrameBuilder_drum, &bd}` or
`{NULL, NULL}`). -/
def GuardAgrees (samples : List (Sample α)) : Prop :=
  ∀ e ∈ samples, e.fb.ud.isSome = e.fb.tab.isSome

/-- The machine agrees with the schedule before the call with tick `i`: the cursor
is on an event before the sentinel whose offset has been reached (and passed, unless
it is the first event), the next offset has not been passed, and the counter is the
time elapsed since the offset of the cursor. -/
def OnSchedule (samples : List (Sample α)) (st : Machine α) (i : Int) : Prop :=
  st.p.s + 1 < samples.length ∧ offset samples st.p.s ≤ i ∧
    (1 ≤ st.p.s → offset samples st.p.s < i) ∧ i ≤ offset samples (st.p.s + 1) ∧
    st.p.frame = i - offset samples st.p.s

end Defs

/-! ## Theorems -/

section DrumLemmas

variable {α : Type} [LinearOrderedField α]

lemma clampf_mem_of_nonneg (limit x : α) (h : 0 ≤ limit) :
    -limit ≤ clampf (-limit) limit x ∧ clampf (-limit) limit x ≤ limit := by
  unfold clampf maxf minf
  constructor
  · split_ifs <;> linarith
  · split_ifs <;> linarith

end DrumLemmas

section SinkLemmas
variable {α : Type}

lemma take_set_set (l : List α) (k : Nat) (a b : α) (h : k + 2 ≤ l.length) :
    ((l.set k a).set (k + 1) b).take (k + 2) = l.take k ++ [a, b] := by
  induction l generalizing k with
  | nil => simp at h
  | cons x xs ih =>
    cases k with
    | zero =>
      cases xs with
      | nil => simp at h
      | cons y ys => simp
    | succ k =>
      simp only [List.length_cons] at h
      simp only [List.set_cons_succ, List.take_succ_cons, List.cons_append]
      rw [ih k (by omega)]

lemma add_frame_lt (answer : Nat → Nat → Int) (w : SongWriter α) (out : Stream α) (f : Frame α)
    (k : Nat) (hk : w.in_buffer = (k : Int)) (hlen : k + 2 ≤ w.buffer.length)
    (hne : (k : Int) + 2 ≠ w.bufferSize) :
    SongWriter_add_frame answer w out f =
      some ({ w with buffer := (w.buffer.set k f.left).set (k + 1) f.right
                     in_buffer := (k : Int) + 2 }, out) := by
  have h1 : 0 ≤ (k : Int) ∧ (k : Int) + 1 < (w.buffer.length : Int) := by
    constructor <;> omega
  have h2 : ((k : Int) + 1).toNat = k + 1 := by omega
  simp only [SongWriter_add_frame, hk, if_pos h1, Int.toNat_ofNat, h2, if_neg hne]

lemma add_frame_eq (answer : Nat → Nat → Int) (w : SongWriter α) (out : Stream α) (f : Frame α)
    (k : Nat) (hk : w.in_buffer = (k : Int)) (hlen : k + 2 ≤ w.buffer.length)
    (heq : (k : Int) + 2 = w.bufferSize) :
    SongWriter_add_frame answer w out f =
      some ({ w with buffer := (w.buffer.set k f.left).set (k + 1) f.right
                     in_buffer := 0 },
            { writes := out.writes ++ [w.buffer.take k ++ [f.left, f.right]]
              diagnostics :=
                if answer out.writes.length (k + 2) ≠ (k : Int) + 2 then out.diagnostics + 1
                else out.diagnostics
              closed := out.closed }) := by
  have h1 : 0 ≤ (k : Int) ∧ (k : Int) + 1 < (w.buffer.length : Int) := by
    constructor <;> omega
  have h2 : ((k : Int) + 1).toNat = k + 1 := by omega
  have h3 : ((k : Int) + 2).toNat = k + 2 := by omega
  have h4 : ¬ ((k : Int) + 2 ≤ 0) := by omega
  have h5 : (k : Int) + 2 ≤ (((w.buffer.set k f.left).set (k + 1) f.right).length : Int) := by
    simp only [List.length_set]; omega
  have h6 : (List.take (k + 2) ((w.buffer.set k f.left).set (k + 1) f.right)).length = k + 2 := by
    simp only [List.length_take, List.length_set]; omega
  simp only [SongWriter_add_frame, hk, if_pos h1, Int.toNat_ofNat, h2, if_pos heq,
    SongWriter_flush, if_neg h4, if_pos h5, h3, sf_write_float, h6]
  rw [take_set_set _ _ _ _ hlen]
  split_ifs <;> rfl


lemma add_frame_inv (answer : Nat → Nat → Int) (C : Nat) (w : SongWriter α) (out : Stream α)
    (f : Frame α) (h : SinkInv C w) :
    ∃ w1 out1, SongWriter_add_frame answer w out f = some (w1, out1) ∧ SinkInv C w1 ∧
      out1.writes.flatten ++ pending w1 = out.writes.flatten ++ pending w ++ [f.left, f.right] ∧
      ((∀ j n, answer j n = (n : Int)) → out1.diagnostics = out.diagnostics) ∧
      out1.closed = out.closed := by
  obtain ⟨hlen, hsize, h0, hlt, hev, hC⟩ := h
  obtain ⟨k, hk⟩ := Int.eq_ofNat_of_zero_le h0
  have hk2 : k + 2 ≤ w.buffer.length := by omega
  by_cases hfull : (k : Int) + 2 = w.bufferSize
  · refine ⟨_, _, add_frame_eq answer w out f k hk hk2 hfull, ?_, ?_, ?_, ?_⟩
    · refine ⟨?_, hsize, ?_, ?_, ?_, hC⟩
      · simp only [List.length_set]; exact hlen
      · simp
      · simp only; omega
      · simp
    · simp [pending, hk]
    · intro hacc
      simp [hacc]
    · rfl
  · refine ⟨_, _, add_frame_lt answer w out f k hk hk2 hfull, ?_, ?_, ?_, ?_⟩
    · refine ⟨?_, hsize, ?_, ?_, ?_, hC⟩
      · simp only [List.length_set]; exact hlen
      · simp only; omega
      · simp only; omega
      · simp only; omega
    · have h3 : ((k : Int) + 2).toNat = k + 2 := by omega
      simp only [pending, hk, h3, Int.toNat_ofNat, take_set_set _ _ _ _ hk2, List.append_assoc]
    · intro _; rfl
    · rfl

lemma flush_inv (answer : Nat → Nat → Int) (C : Nat) (w : SongWriter α) (out : Stream α)
    (h : SinkInv C w) :
    ∃ w1 out1, SongWriter_flush answer w out = some (w1, out1) ∧ SinkInv C w1 ∧
      w1.in_buffer = 0 ∧ w1.buffer = w.buffer ∧
      out1.writes = (if w.in_buffer = 0 then out.writes else out.writes ++ [pending w]) ∧
      ((∀ j n, answer j n = (n : Int)) → out1.diagnostics = out.diagnostics) ∧
      out1.closed = out.closed := by
  obtain ⟨hlen, hsize, h0, hlt, hev, hC⟩ := h
  by_cases hz : w.in_buffer = 0
  · have h1 : w.in_buffer ≤ 0 := by omega
    refine ⟨w, out, by simp only [SongWriter_flush, if_pos h1], ⟨hlen, hsize, h0, hlt, hev, hC⟩,
      hz, rfl, by simp only [if_pos hz], fun _ => rfl, rfl⟩
  · have h1 : ¬ w.in_buffer ≤ 0 := by omega
    have h2 : w.in_buffer ≤ (w.buffer.length : Int) := by omega
    refine ⟨{ w with in_buffer := 0 }, _,
      by simp only [SongWriter_flush, if_neg h1, if_pos h2]; rfl, ?_, rfl, rfl, ?_, ?_, ?_⟩
    · exact ⟨hlen, hsize, le_refl _, by simp only; omega, by simp, hC⟩
    · simp only [if_neg hz, sf_write_float, pending]
      split_ifs <;> rfl
    · intro hacc
      have h3 : (List.take w.in_buffer.toNat w.buffer).length = w.in_buffer.toNat := by
        simp only [List.length_take]; omega
      have h4 : ((w.in_buffer.toNat : Nat) : Int) = w.in_buffer := by omega
      simp only [sf_write_float, hacc, h3, h4, ne_eq, not_true_eq_false, if_false]
    · simp only [sf_write_float]
      split_ifs <;> rfl

end SinkLemmas

/-- C2: for a drum with non-negative limit, whatever the other parameters, the phase,
the two noise draws, the positive sample rate and the non-negative elapsed frame
count, both samples of the frame returned by `Drum_next` lie in `[-limit, limit]`
(arithmetic over the reals). -/
theorem Drum_next_within_limit (bd : Drum ℝ) (sampleRate : ℝ) (f : Int) (wn1 wn2 : ℝ)
    (hlimit : 0 ≤ bd.limit) (_hrate : 0 < sampleRate) (_hf : 0 ≤ f) :
    -bd.limit ≤ (Drum_next ⟨Real.sin, Real.exp, Real.pi⟩ bd sampleRate f wn1 wn2).1.left ∧
    (Drum_next ⟨Real.sin, Real.exp, Real.pi⟩ bd sampleRate f wn1 wn2).1.left ≤ bd.limit ∧
    -bd.limit ≤ (Drum_next ⟨Real.sin, Real.exp, Real.pi⟩ bd sampleRate f wn1 wn2).1.right ∧
    (Drum_next ⟨Real.sin, Real.exp, Real.pi⟩ bd sampleRate f wn1 wn2).1.right ≤ bd.limit := by
  simp only [Drum_next]
  exact ⟨(clampf_mem_of_nonneg _ _ hlimit).1, (clampf_mem_of_nonneg _ _ hlimit).2,
    (clampf_mem_of_nonneg _ _ hlimit).1, (clampf_mem_of_nonneg _ _ hlimit).2⟩

section SinkRuns
variable {α : Type}

lemma create_inv (handle : Option Nat) (uninit : Nat → α) (bufferSize : Int) (hbs : 1 ≤ bufferSize) :
    SinkInv (2 * bufferSize).toNat (SongWriter_create handle uninit 2 bufferSize).1 := by
  refine ⟨?_, ?_, ?_, ?_, ?_, ?_⟩
  · simp [SongWriter_create]
  · simp only [SongWriter_create]; omega
  · simp [SongWriter_create]
  · simp only [SongWriter_create]; omega
  · simp [SongWriter_create]
  · omega

lemma add_frames_inv (answer : Nat → Nat → Int) (C : Nat) (fs : List (Frame α)) :
    ∀ (w : SongWriter α) (out : Stream α), SinkInv C w →
    ∃ w1 out1, SongWriter_add_frames answer w out fs = some (w1, out1) ∧ SinkInv C w1 ∧
      out1.writes.flatten ++ pending w1 = out.writes.flatten ++ pending w ++ interleave fs ∧
      ((∀ j n, answer j n = (n : Int)) → out1.diagnostics = out.diagnostics) ∧
      out1.closed = out.closed := by
  induction fs with
  | nil =>
    intro w out h
    exact ⟨w, out, rfl, h, by simp [interleave], fun _ => rfl, rfl⟩
  | cons f rest ih =>
    intro w out h
    obtain ⟨w1, out1, hstep, hinv1, hdata1, hdiag1, hclosed1⟩ := add_frame_inv answer C w out f h
    obtain ⟨w2, out2, hrest, hinv2, hdata2, hdiag2, hclosed2⟩ := ih w1 out1 hinv1
    refine ⟨w2, out2, ?_, hinv2, ?_, ?_, ?_⟩
    · simp only [SongWriter_add_frames, hstep, hrest]
    · rw [hdata2, hdata1]; simp [interleave]
    · intro hacc; rw [hdiag2 hacc, hdiag1 hacc]
    · rw [hclosed2, hclosed1]

lemma run_inv (answer : Nat → Nat → Int) (C : Nat) (ops : List (SinkOp α)) :
    ∀ (w : SongWriter α) (out : Stream α), SinkInv C w →
    ∃ w1 out1, SongWriter_run answer w out ops = some (w1, out1) ∧ SinkInv C w1 := by
  induction ops with
  | nil =>
    intro w out h
    exact ⟨w, out, rfl, h⟩
  | cons op rest ih =>
    intro w out h
    cases op with
    | add_frame f =>
      obtain ⟨w1, out1, hstep, hinv1, _⟩ := add_frame_inv answer C w out f h
      obtain ⟨w2, out2, hrest, hinv2⟩ := ih w1 out1 hinv1
      exact ⟨w2, out2, by simp only [SongWriter_run, hstep, hrest], hinv2⟩
    | flush =>
      obtain ⟨w1, out1, hstep, hinv1, _⟩ := flush_inv answer C w out h
      obtain ⟨w2, out2, hrest, hinv2⟩ := ih w1 out1 hinv1
      exact ⟨w2, out2, by simp only [SongWriter_run, hstep, hrest], hinv2⟩

lemma length_interleave (fs : List (Frame α)) : (interleave fs).length = 2 * fs.length := by
  induction fs with
  | nil => rfl
  | cons f rest ih => simp only [interleave, List.length_cons, ih]; omega

end SinkRuns

/-- C3: a sink created with 2 channels and buffer size at least 1, pushed the
frames `f_0 .. f_(n-1)` with `SongWriter_add_frame` and then disposed, on a stream
that accepts every write in full: both calls return, the blocks written,
concatenated in write order, are exactly `f_0.left, f_0.right, ..., f_(n-1).left,
f_(n-1).right`, their total length is `2 * n`, and no write error is reported. -/
theorem SongWriter_writes_every_frame_once {α : Type} (answer : Nat → Nat → Int)
    (handle : Option Nat) (uninit : Nat → α) (bufferSize : Int) (frames : List (Frame α))
    (hbs : 1 ≤ bufferSize) (hacc : ∀ j n, answer j n = (n : Int)) :
    ∃ w1 out1 w2 out2,
      SongWriter_add_frames answer (SongWriter_create handle uninit 2 bufferSize).1
        (SongWriter_create handle uninit 2 bufferSize).2 frames = some (w1, out1) ∧
      SongWriter_dispose answer w1 out1 = some (w2, out2) ∧
      out2.writes.flatten = interleave frames ∧
      out2.writes.flatten.length = 2 * frames.length ∧
      out2.diagnostics = 0 := by
  obtain ⟨w1, out1, hrun, hinv1, hdata1, hdiag1, _⟩ :=
    add_frames_inv answer _ frames _ (SongWriter_create handle uninit 2 bufferSize).2
      (create_inv handle uninit bufferSize hbs)
  obtain ⟨w2, out2, hfl, _, hz, _, hwr, hdiag2, _⟩ := flush_inv answer _ w1 out1 hinv1
  have hdata : out2.writes.flatten = interleave frames := by
    have h0 : out1.writes.flatten ++ pending w1 = interleave frames := by
      rw [hdata1]; simp [SongWriter_create, pending]
    rw [hwr, ← h0]
    by_cases hk : w1.in_buffer = 0
    · simp [hk, pending]
    · simp [hk]
  refine ⟨w1, out1, { w2 with buffer := [], bufferSize := 0, file := none },
    { out2 with closed := true }, hrun, by simp only [SongWriter_dispose, hfl], hdata, ?_, ?_⟩
  · simp only [hdata, length_interleave]
  · simp only
    rw [hdiag2 hacc, hdiag1 hacc]
    rfl

/-- C6: a sink created by `SongWriter_create` with 2 channels and buffer size at
least 1 has capacity `2 * bufferSize`, and after any list of `SongWriter_add_frame`
and `SongWriter_flush` calls (every call returns) its fill count `in_buffer` is a
multiple of 2, is not negative and does not exceed the capacity `bufferSize`. -/
theorem SongWriter_fill_count_invariant {α : Type} (answer : Nat → Nat → Int)
    (handle : Option Nat) (uninit : Nat → α) (bufferSize : Int) (ops : List (SinkOp α))
    (hbs : 1 ≤ bufferSize) :
    ∃ w out,
      SongWriter_run answer (SongWriter_create handle uninit 2 bufferSize).1
        (SongWriter_create handle uninit 2 bufferSize).2 ops = some (w, out) ∧
      w.bufferSize = 2 * bufferSize ∧
      2 ∣ w.in_buffer ∧ 0 ≤ w.in_buffer ∧ w.in_buffer ≤ w.bufferSize := by
  obtain ⟨w, out, hrun, hlen, hsize, h0, hlt, hev, _⟩ :=
    run_inv answer _ ops _ (SongWriter_create handle uninit 2 bufferSize).2
      (create_inv handle uninit bufferSize hbs)
  exact ⟨w, out, hrun, by omega, hev, h0, by omega⟩


/-- Witness of C3: three frames through a sink of capacity 2. -/
theorem SongWriter_writes_every_frame_once_witness :
    (1 : Int) ≤ 1 ∧ (∀ j n : Nat, (fun (_ n : Nat) => (n : Int)) j n = (n : Int)) ∧
    ∃ w1 out1 w2 out2,
      SongWriter_add_frames (fun _ n => (n : Int))
        (SongWriter_create (some 1) (fun _ => (0 : ℚ)) 2 1).1
        (SongWriter_create (some 1) (fun _ => (0 : ℚ)) 2 1).2
        [⟨1, 2⟩, ⟨3, 4⟩, ⟨5, 6⟩] = some (w1, out1) ∧
      SongWriter_dispose (fun _ n => (n : Int)) w1 out1 = some (w2, out2) ∧
      out2.writes.flatten = interleave [⟨1, 2⟩, ⟨3, 4⟩, ⟨5, 6⟩] ∧
      out2.writes.flatten.length = 2 * [(⟨1, 2⟩ : Frame ℚ), ⟨3, 4⟩, ⟨5, 6⟩].length ∧
      out2.diagnostics = 0 :=
  ⟨by decide, fun _ _ => rfl,
    SongWriter_writes_every_frame_once (fun _ n => (n : Int)) (some 1) (fun _ => (0 : ℚ)) 1
      [⟨1, 2⟩, ⟨3, 4⟩, ⟨5, 6⟩] (by decide) (fun _ _ => rfl)⟩

/-- Witness of C6: a sink of buffer size 2 after a push, a flush and a push. -/
theorem SongWriter_fill_count_invariant_witness :
    (1 : Int) ≤ 2 ∧
    ∃ w out,
      SongWriter_run (fun _ _ => (0 : Int))
        (SongWriter_create (some 1) (fun _ => (0 : ℚ)) 2 2).1
        (SongWriter_create (some 1) (fun _ => (0 : ℚ)) 2 2).2
        [SinkOp.add_frame ⟨1, 2⟩, SinkOp.flush, SinkOp.add_frame ⟨3, 4⟩] = some (w, out) ∧
      w.bufferSize = 2 * 2 ∧
      2 ∣ w.in_buffer ∧ 0 ≤ w.in_buffer ∧ w.in_buffer ≤ w.bufferSize :=
  ⟨by decide,
    SongWriter_fill_count_invariant (fun _ _ => (0 : Int)) (some 1) (fun _ => (0 : ℚ)) 2
      [SinkOp.add_frame ⟨1, 2⟩, SinkOp.flush, SinkOp.add_frame ⟨3, 4⟩] (by decide)⟩

/-- C7: `SongWriter_flush` on a fill count of 0 (or below) returns with the sink
and the stream unchanged, so without a write; on a fill count `k > 0` (the `k`
buffered samples being there) it hands the stream exactly one block, the first `k`
samples of the buffer, and leaves the fill count at 0 and the rest of the sink
unchanged, whatever the stream answers: an answer other than `k` adds one
diagnostic and nothing else. -/
theorem SongWriter_flush_discards {α : Type} (answer : Nat → Nat → Int) (w : SongWriter α)
    (out : Stream α) (hfit : w.in_buffer ≤ (w.buffer.length : Int)) :
    (w.in_buffer ≤ 0 → SongWriter_flush answer w out = some (w, out)) ∧
    (0 < w.in_buffer →
      SongWriter_flush answer w out =
        some ({ w with in_buffer := 0 },
              { writes := out.writes ++ [w.buffer.take w.in_buffer.toNat]
                diagnostics :=
                  if answer out.writes.length w.in_buffer.toNat = w.in_buffer then out.diagnostics
                  else out.diagnostics + 1
                closed := out.closed })) := by
  constructor
  · intro h
    simp only [SongWriter_flush, if_pos h]
  · intro h
    have h1 : ¬ w.in_buffer ≤ 0 := by omega
    have h3 : (List.take w.in_buffer.toNat w.buffer).length = w.in_buffer.toNat := by
      simp only [List.length_take]; omega
    simp only [SongWriter_flush, if_neg h1, if_pos hfit, sf_write_float, h3]
    split_ifs <;> simp_all

/-- Witness of C7: two samples waiting in a buffer of four, the stream accepting
only one of them. -/
theorem SongWriter_flush_discards_witness :
    ((2 : Int) ≤ (([5, 6, 7, 8] : List ℚ).length : Int)) ∧
    SongWriter_flush (fun _ _ => (1 : Int)) ⟨some 1, [(5 : ℚ), 6, 7, 8], 4, 2⟩ ⟨[], 0, false⟩ =
      some (⟨some 1, [5, 6, 7, 8], 4, 0⟩, ⟨[[5, 6]], 1, false⟩) :=
  ⟨by decide,
    ((SongWriter_flush_discards (fun _ _ => (1 : Int)) ⟨some 1, [(5 : ℚ), 6, 7, 8], 4, 2⟩
      ⟨[], 0, false⟩ (by decide)).2 (by decide)).trans (by simp)⟩

section SinkBlocks
variable {α : Type}

lemma add_frames_append (answer : Nat → Nat → Int) (fs gs : List (Frame α)) :
    ∀ (w : SongWriter α) (out : Stream α),
    SongWriter_add_frames answer w out (fs ++ gs) =
      match SongWriter_add_frames answer w out fs with
      | none => none
      | some (w1, out1) => SongWriter_add_frames answer w1 out1 gs := by
  induction fs with
  | nil => intro w out; rfl
  | cons f rest ih =>
    intro w out
    simp only [List.cons_append, SongWriter_add_frames]
    cases SongWriter_add_frame answer w out f with
    | none => rfl
    | some r => exact ih r.1 r.2

/-- Frames that do not fill the buffer: no write, the samples wait in the buffer
in push order. -/
lemma add_frames_below (answer : Nat → Nat → Int) (C : Nat) (fs : List (Frame α)) :
    ∀ (w : SongWriter α) (out : Stream α) (k : Nat), w.in_buffer = (k : Int) →
    w.buffer.length = C → w.bufferSize = (C : Int) → k + 2 * fs.length < C →
    ∃ w1, SongWriter_add_frames answer w out fs = some (w1, out) ∧
      w1.in_buffer = ((k + 2 * fs.length : Nat) : Int) ∧ w1.buffer.length = C ∧
      w1.bufferSize = (C : Int) ∧ w1.file = w.file ∧
      w1.buffer.take (k + 2 * fs.length) = w.buffer.take k ++ interleave fs := by
  induction fs with
  | nil =>
    intro w out k hk hlen hsize _
    exact ⟨w, rfl, by simpa using hk, hlen, hsize, rfl, by simp [interleave]⟩
  | cons f rest ih =>
    intro w out k hk hlen hsize hlt
    simp only [List.length_cons] at hlt
    have hstep := add_frame_lt answer w out f k hk (by omega) (by omega)
    obtain ⟨w1, hrest, hin, hlen1, hsize1, hfile1, htake⟩ :=
      ih { w with buffer := (w.buffer.set k f.left).set (k + 1) f.right, in_buffer := (k : Int) + 2 }
        out (k + 2) (by simp) (by simpa using hlen) hsize (by omega)
    refine ⟨w1, ?_, ?_, hlen1, hsize1, hfile1, ?_⟩
    · simp only [SongWriter_add_frames, hstep]
      exact hrest
    · rw [hin]; simp only [List.length_cons]; congr 1; omega
    · have e : k + 2 * (f :: rest).length = k + 2 + 2 * rest.length := by
        simp only [List.length_cons]; omega
      rw [e, htake]
      simp only [take_set_set _ _ _ _ (show k + 2 ≤ w.buffer.length by omega), interleave,
        List.append_assoc, List.cons_append, List.nil_append]

/-- Frames that fill the buffer exactly: one write, of the waiting samples followed
by the pushed ones, and the buffer is empty again. -/
lemma add_frames_fill (answer : Nat → Nat → Int) (C : Nat) (fs : List (Frame α)) :
    ∀ (w : SongWriter α) (out : Stream α) (k : Nat), w.in_buffer = (k : Int) →
    w.buffer.length = C → w.bufferSize = (C : Int) → fs ≠ [] → k + 2 * fs.length = C →
    ∃ w1 out1, SongWriter_add_frames answer w out fs = some (w1, out1) ∧
      w1.in_buffer = 0 ∧ w1.buffer.length = C ∧ w1.bufferSize = (C : Int) ∧
      out1.writes = out.writes ++ [w.buffer.take k ++ interleave fs] := by
  induction fs with
  | nil => intro w out k _ _ _ hne; exact absurd rfl hne
  | cons f rest ih =>
    intro w out k hk hlen hsize _ hfull
    simp only [List.length_cons] at hfull
    cases rest with
    | nil =>
      simp only [List.length_nil] at hfull
      have hstep := add_frame_eq answer w out f k hk (by omega) (by omega)
      refine ⟨{ w with buffer := (w.buffer.set k f.left).set (k + 1) f.right, in_buffer := 0 },
        { writes := out.writes ++ [w.buffer.take k ++ [f.left, f.right]]
          diagnostics :=
            if answer out.writes.length (k + 2) ≠ (k : Int) + 2 then out.diagnostics + 1
            else out.diagnostics
          closed := out.closed }, ?_, rfl, by simpa using hlen, hsize, by simp [interleave]⟩
      simp only [SongWriter_add_frames, hstep]
    | cons g rest2 =>
      simp only [List.length_cons] at hfull
      have hstep := add_frame_lt answer w out f k hk (by omega) (by omega)
      obtain ⟨w1, out1, hrest, hin, hlen1, hsize1, hwr⟩ :=
        ih { w with buffer := (w.buffer.set k f.left).set (k + 1) f.right, in_buffer := (k : Int) + 2 }
          out (k + 2) (by simp) (by simpa using hlen) hsize (by simp)
          (by simp only [List.length_cons]; omega)
      refine ⟨w1, out1, ?_, hin, hlen1, hsize1, ?_⟩
      · simp only [SongWriter_add_frames, hstep]
        simp only [SongWriter_add_frames] at hrest
        exact hrest
      · rw [hwr]
        simp only [take_set_set _ _ _ _ (show k + 2 ≤ w.buffer.length by omega), interleave,
          List.append_assoc, List.cons_append, List.nil_append]

end SinkBlocks

/-- C8: an empty sink of even capacity `C ≥ 2` (the `bufferSize` field, in samples)
that is pushed `C` frames, that is `2 * C` samples, with `SongWriter_add_frame`
returns from every push, hands the stream exactly 2 blocks, each of exactly `C`
samples (the first and the second half of the pushed samples), and ends with fill
count 0. -/
theorem SongWriter_two_automatic_flushes {α : Type} (answer : Nat → Nat → Int)
    (w : SongWriter α) (out : Stream α) (C : Nat) (frames : List (Frame α))
    (hsize : w.bufferSize = (C : Int)) (hlen : w.buffer.length = C) (hempty : w.in_buffer = 0)
    (heven : 2 ∣ C) (hC : 2 ≤ C) (hframes : frames.length = C) :
    ∃ w1 out1 b1 b2,
      SongWriter_add_frames answer w out frames = some (w1, out1) ∧
      out1.writes = out.writes ++ [b1, b2] ∧
      b1.length = C ∧ b2.length = C ∧ b1 ++ b2 = interleave frames ∧
      w1.in_buffer = 0 := by
  obtain ⟨h, rfl⟩ := heven
  have hsplit : frames = frames.take h ++ frames.drop h := (List.take_append_drop h frames).symm
  have hl1 : (frames.take h).length = h := by simp only [List.length_take]; omega
  have hl2 : (frames.drop h).length = h := by simp only [List.length_drop]; omega
  obtain ⟨wa, outa, hruna, hina, hlena, hsizea, hwra⟩ :=
    add_frames_fill answer (2 * h) (frames.take h) w out 0 (by simpa using hempty) hlen hsize
      (by intro e; rw [e] at hl1; simp at hl1; omega) (by omega)
  obtain ⟨wb, outb, hrunb, hinb, _, _, hwrb⟩ :=
    add_frames_fill answer (2 * h) (frames.drop h) wa outa 0 (by simpa using hina) hlena hsizea
      (by intro e; rw [e] at hl2; simp at hl2; omega) (by omega)
  have hinter : ∀ fs gs : List (Frame α), interleave (fs ++ gs) = interleave fs ++ interleave gs := by
    intro fs gs
    induction fs with
    | nil => rfl
    | cons f rest ih => simpa [interleave] using ih
  refine ⟨wb, outb, interleave (frames.take h), interleave (frames.drop h), ?_, ?_, ?_, ?_, ?_, hinb⟩
  · rw [hsplit, add_frames_append, hruna]
    exact hrunb
  · rw [hwrb, hwra]; simp
  · rw [length_interleave, hl1]
  · rw [length_interleave, hl2]
  · rw [← hinter, List.take_append_drop]

/-- Witness of C8: 4 frames through an empty sink of capacity 4. -/
theorem SongWriter_two_automatic_flushes_witness :
    ∃ w1 out1 b1 b2,
      SongWriter_add_frames (fun _ _ => (0 : Int)) ⟨some 1, [(0 : ℚ), 0, 0, 0], 4, 0⟩ ⟨[], 0, false⟩
        [⟨1, 2⟩, ⟨3, 4⟩, ⟨5, 6⟩, ⟨7, 8⟩] = some (w1, out1) ∧
      out1.writes = ([] : List (List ℚ)) ++ [b1, b2] ∧
      b1.length = 4 ∧ b2.length = 4 ∧
      b1 ++ b2 = interleave [⟨1, 2⟩, ⟨3, 4⟩, ⟨5, 6⟩, ⟨7, 8⟩] ∧
      w1.in_buffer = 0 :=
  SongWriter_two_automatic_flushes (fun _ _ => (0 : Int)) ⟨some 1, [(0 : ℚ), 0, 0, 0], 4, 0⟩
    ⟨[], 0, false⟩ 4 [⟨1, 2⟩, ⟨3, 4⟩, ⟨5, 6⟩, ⟨7, 8⟩] rfl rfl rfl (by decide) (by decide) rfl


/-- C9 (as stated) fails on the empty list of frames: an empty sink of capacity 2
is pushed no frame (0 samples, fewer than 2) and disposed; both steps return and
the stream has been handed no block at all, so not exactly one. -/
theorem SongWriter_dispose_empty_writes_nothing :
    ∃ w1 out1 w2 out2,
      SongWriter_add_frames (fun _ n => (n : Int)) ⟨some 1, [(0 : ℚ), 0], 2, 0⟩ ⟨[], 0, false⟩ [] =
        some (w1, out1) ∧
      SongWriter_dispose (fun _ n => (n : Int)) w1 out1 = some (w2, out2) ∧
      out2.writes = [] ∧ out2.writes.length ≠ 1 :=
  ⟨⟨some 1, [0, 0], 2, 0⟩, ⟨[], 0, false⟩, ⟨none, [], 0, 0⟩, ⟨[], 0, true⟩, rfl, by
    simp [SongWriter_dispose, SongWriter_flush], rfl, by decide⟩

/-- C9 (amended): an empty sink of even capacity `C` that is pushed a non-empty
list of frames of fewer than `C` samples in total and then disposed: the pushes
return without handing the stream anything, the dispose returns, and the stream
has then been handed exactly one block, made of exactly the pushed samples in push
order. -/
theorem SongWriter_dispose_flushes_remainder {α : Type} (answer : Nat → Nat → Int)
    (w : SongWriter α) (out : Stream α) (C : Nat) (frames : List (Frame α))
    (hsize : w.bufferSize = (C : Int)) (hlen : w.buffer.length = C) (hempty : w.in_buffer = 0)
    (_heven : 2 ∣ C) (hne : frames ≠ []) (hfew : 2 * frames.length < C) :
    ∃ w1 out1 w2 out2,
      SongWriter_add_frames answer w out frames = some (w1, out1) ∧
      out1.writes = out.writes ∧
      SongWriter_dispose answer w1 out1 = some (w2, out2) ∧
      out2.writes = out.writes ++ [interleave frames] := by
  obtain ⟨w1, hrun, hin, hlen1, _, _, htake⟩ :=
    add_frames_below answer C frames w out 0 (by simpa using hempty) hlen hsize (by omega)
  have hpos : 0 < frames.length := List.length_pos.mpr hne
  have h1 : ¬ w1.in_buffer ≤ 0 := by rw [hin]; omega
  have h2 : w1.in_buffer ≤ (w1.buffer.length : Int) := by rw [hin, hlen1]; omega
  have h3 : w1.in_buffer.toNat = 0 + 2 * frames.length := by rw [hin]; omega
  refine ⟨w1, out, { file := none, buffer := [], bufferSize := 0, in_buffer := 0 },
    { writes := out.writes ++ [interleave frames]
      diagnostics :=
        if answer out.writes.length (2 * frames.length) ≠ w1.in_buffer then out.diagnostics + 1
        else out.diagnostics
      closed := true }, hrun, rfl, ?_, rfl⟩
  simp only [SongWriter_dispose, SongWriter_flush, if_neg h1, if_pos h2, sf_write_float, h3, htake,
    List.take_zero, List.nil_append, length_interleave]
  split_ifs <;> simp_all

/-- Witness of C9 (amended): one frame through an empty sink of capacity 4. -/
theorem SongWriter_dispose_flushes_remainder_witness :
    ∃ w1 out1 w2 out2,
      SongWriter_add_frames (fun _ n => (n : Int)) ⟨some 1, [(0 : ℚ), 0, 0, 0], 4, 0⟩
        ⟨[], 0, false⟩ [⟨1, 2⟩] = some (w1, out1) ∧
      out1.writes = [] ∧
      SongWriter_dispose (fun _ n => (n : Int)) w1 out1 = some (w2, out2) ∧
      out2.writes = ([] : List (List ℚ)) ++ [interleave [⟨1, 2⟩]] :=
  SongWriter_dispose_flushes_remainder (fun _ n => (n : Int)) ⟨some 1, [(0 : ℚ), 0, 0, 0], 4, 0⟩
    ⟨[], 0, false⟩ 4 [⟨1, 2⟩] rfl rfl rfl (by decide) (by simp) (by decide)


section PhaseLemmas

/-- One `Drum_next` call keeps the phase in `[0, 2π)` when the phase advance
`2π * currentFrequency / sampleRate` is in `[0, 2π)`. -/
lemma Drum_next_phase_step (bd : Drum ℝ) (sampleRate : ℝ) (f : Int) (wn1 wn2 : ℝ)
    (hrate : 0 < sampleRate) (h0 : 0 ≤ bd.phase) (h1 : bd.phase < 2 * Real.pi)
    (hlo : 0 ≤ bd.frequency * Real.exp (-bd.freqDecay * (f : ℝ) / sampleRate))
    (hhi : bd.frequency * Real.exp (-bd.freqDecay * (f : ℝ) / sampleRate) < sampleRate) :
    0 ≤ (Drum_next ⟨Real.sin, Real.exp, Real.pi⟩ bd sampleRate f wn1 wn2).2.phase ∧
    (Drum_next ⟨Real.sin, Real.exp, Real.pi⟩ bd sampleRate f wn1 wn2).2.phase < 2 * Real.pi := by
  have hpi : 0 < 2 * Real.pi := by positivity
  set cf := bd.frequency * Real.exp (-bd.freqDecay * (f : ℝ) / sampleRate) with hcf
  have hinc0 : 0 ≤ 2 * Real.pi * cf / sampleRate := by positivity
  have hinc1 : 2 * Real.pi * cf / sampleRate < 2 * Real.pi := by
    rw [div_lt_iff₀ hrate]
    exact mul_lt_mul_of_pos_left hhi hpi
  simp only [Drum_next, TWO_PI, ← hcf]
  split_ifs with hwrap
  · constructor <;> linarith
  · constructor <;> linarith

end PhaseLemmas

/-- C5 (as stated) fails: a drum of frequency 88200 with no frequency decay, started
and rendered once at sample rate 44100 with elapsed count 0, ends with phase exactly
`2π`, which is not below `2π`: the phase advance is `4π` and only one `2π` is taken
off. -/
theorem Drum_phase_leaves_range :
    (Drum_run ⟨Real.sin, Real.exp, Real.pi⟩ (44100 : ℝ)
      (Drum_start ⟨1, 15, 88200, 0, 0, 10, 1 / 2, 0⟩) [(0, 0, 0)]).phase = 2 * Real.pi ∧
    ¬ ((Drum_run ⟨Real.sin, Real.exp, Real.pi⟩ (44100 : ℝ)
      (Drum_start ⟨1, 15, 88200, 0, 0, 10, 1 / 2, 0⟩) [(0, 0, 0)]).phase < 2 * Real.pi) := by
  have hpi : 0 < Real.pi := Real.pi_pos
  have h : (Drum_run ⟨Real.sin, Real.exp, Real.pi⟩ (44100 : ℝ)
      (Drum_start ⟨1, 15, 88200, 0, 0, 10, 1 / 2, 0⟩) [(0, 0, 0)]).phase = 2 * Real.pi := by
    simp only [Drum_run, Drum_next, Drum_start, TWO_PI]
    norm_num
    rw [if_pos (by linarith)]
    ring
  exact ⟨h, by rw [h]; exact lt_irrefl _⟩

/-- C5 (amended): for a drum with non-negative frequency (any decay rates), a
positive sample rate and any sequence of `Drum_next` calls with non-negative elapsed
counts after `Drum_start`, if in every call the instantaneous frequency
`frequency * exp(-freqDecay * f / sampleRate)` is below the sample rate, then the
phase after the calls satisfies `0 ≤ phase < 2π` (arithmetic over the reals). -/
theorem Drum_phase_in_range (bd : Drum ℝ) (sampleRate : ℝ) (calls : List (Int × ℝ × ℝ))
    (hfreq : 0 ≤ bd.frequency) (hrate : 0 < sampleRate) (_hf : ∀ c ∈ calls, 0 ≤ c.1)
    (hbelow : ∀ c ∈ calls,
      bd.frequency * Real.exp (-bd.freqDecay * (c.1 : ℝ) / sampleRate) < sampleRate) :
    0 ≤ (Drum_run ⟨Real.sin, Real.exp, Real.pi⟩ sampleRate (Drum_start bd) calls).phase ∧
    (Drum_run ⟨Real.sin, Real.exp, Real.pi⟩ sampleRate (Drum_start bd) calls).phase
      < 2 * Real.pi := by
  have key : ∀ (calls : List (Int × ℝ × ℝ)) (d : Drum ℝ), d.frequency = bd.frequency →
      d.freqDecay = bd.freqDecay → 0 ≤ d.phase → d.phase < 2 * Real.pi →
      (∀ c ∈ calls,
        bd.frequency * Real.exp (-bd.freqDecay * (c.1 : ℝ) / sampleRate) < sampleRate) →
      0 ≤ (Drum_run ⟨Real.sin, Real.exp, Real.pi⟩ sampleRate d calls).phase ∧
      (Drum_run ⟨Real.sin, Real.exp, Real.pi⟩ sampleRate d calls).phase < 2 * Real.pi := by
    intro calls
    induction calls with
    | nil => intro d _ _ h0 h1 _; exact ⟨h0, h1⟩
    | cons c rest ih =>
      intro d hfr hdec h0 h1 hb
      obtain ⟨f, wn1, wn2⟩ := c
      have hc := hb (f, wn1, wn2) (List.mem_cons_self _ _)
      have hstep := Drum_next_phase_step d sampleRate f wn1 wn2 hrate h0 h1
        (by rw [hfr]; exact mul_nonneg hfreq (Real.exp_pos _).le) (by rw [hfr, hdec]; exact hc)
      simp only [Drum_run]
      exact ih _ hfr hdec hstep.1 hstep.2 (fun c hc => hb c (List.mem_cons_of_mem _ hc))
  exact key calls (Drum_start bd) rfl rfl (le_refl _) (by positivity) hbelow

/-- Witness of C5 (amended): the bass drum of `main` (frequency 110, frequency decay
28) rendered at elapsed counts 0 and 1 at sample rate 44100. -/
theorem Drum_phase_in_range_witness :
    0 ≤ (Drum_run ⟨Real.sin, Real.exp, Real.pi⟩ (44100 : ℝ)
      (Drum_start ⟨1, 15, 110, 28, 1 / 10, 28, 1 / 2, 0⟩) [(0, 0, 0), (1, 0, 0)]).phase ∧
    (Drum_run ⟨Real.sin, Real.exp, Real.pi⟩ (44100 : ℝ)
      (Drum_start ⟨1, 15, 110, 28, 1 / 10, 28, 1 / 2, 0⟩) [(0, 0, 0), (1, 0, 0)]).phase
      < 2 * Real.pi :=
  Drum_phase_in_range ⟨1, 15, 110, 28, 1 / 10, 28, 1 / 2, 0⟩ 44100 [(0, 0, 0), (1, 0, 0)]
    (by norm_num) (by norm_num) (by simp)
    (by
      intro c hc
      have hle : Real.exp (-(28 : ℝ) * (c.1 : ℝ) / 44100) ≤ 1 := by
        rw [Real.exp_le_one_iff]
        simp only [List.mem_cons, List.mem_singleton, List.not_mem_nil, or_false] at hc
        rcases hc with rfl | rfl <;> norm_num
      show (110 : ℝ) * Real.exp (-(28 : ℝ) * (c.1 : ℝ) / 44100) < 44100
      linarith)

/-- Witness of C2: the bass drum of `main` at sample rate 44100. -/
theorem Drum_next_within_limit_witness :
    -(1 / 2 : ℝ) ≤ (Drum_next ⟨Real.sin, Real.exp, Real.pi⟩
      ⟨1, 15, 110, 28, 1 / 10, 28, 1 / 2, 0⟩ 44100 3 (1 / 4) (-1)).1.left ∧
    (Drum_next ⟨Real.sin, Real.exp, Real.pi⟩
      ⟨1, 15, 110, 28, 1 / 10, 28, 1 / 2, 0⟩ 44100 3 (1 / 4) (-1)).1.left ≤ 1 / 2 ∧
    -(1 / 2 : ℝ) ≤ (Drum_next ⟨Real.sin, Real.exp, Real.pi⟩
      ⟨1, 15, 110, 28, 1 / 10, 28, 1 / 2, 0⟩ 44100 3 (1 / 4) (-1)).1.right ∧
    (Drum_next ⟨Real.sin, Real.exp, Real.pi⟩
      ⟨1, 15, 110, 28, 1 / 10, 28, 1 / 2, 0⟩ 44100 3 (1 / 4) (-1)).1.right ≤ 1 / 2 :=
  Drum_next_within_limit ⟨1, 15, 110, 28, 1 / 10, 28, 1 / 2, 0⟩ 44100 3 (1 / 4) (-1)
    (by norm_num) (by norm_num) (by norm_num)

section EventLemmas
variable {α : Type}

lemma offset_of_getElem? {samples : List (Sample α)} {k : Nat} {e : Sample α}
    (h : samples[k]? = some e) : offset samples k = e.frame := by
  simp only [offset, h]

lemma getElem?_of_lt (samples : List (Sample α)) {k : Nat} (hk : k < samples.length) :
    ∃ e, samples[k]? = some e ∧ e ∈ samples :=
  ⟨samples[k], List.getElem?_eq_getElem hk, List.getElem_mem hk⟩

lemma offset_lt_of_lt {samples : List (Sample α)} (hstrict : StrictOffsets samples) {a b : Nat}
    (hab : a < b) (hb : b < samples.length) : offset samples a < offset samples b := by
  have ha : a < samples.length := by omega
  have h := List.pairwise_iff_getElem.mp hstrict a b (by simpa using ha) (by simpa using hb) hab
  simp only [List.getElem_map] at h
  simpa only [offset, List.getElem?_eq_getElem ha, List.getElem?_eq_getElem hb] using h

lemma tab_of_not_last {samples : List (Sample α)} (hterm : SentinelTerminated samples) {k : Nat}
    {e : Sample α} (hk : k + 1 < samples.length) (he : samples[k]? = some e) :
    ∃ tab, e.fb.tab = some tab := by
  have hmem : e ∈ samples.dropLast := by
    apply List.getElem?_mem (n := k)
    rw [List.getElem?_dropLast, if_pos (by omega), he]
  have h := List.all_eq_true.mp hterm.2 e hmem
  exact Option.isSome_iff_exists.mp h

lemma tab_of_last {samples : List (Sample α)} (hterm : SentinelTerminated samples) {k : Nat}
    {e : Sample α} (hk : k + 1 = samples.length) (he : samples[k]? = some e) :
    e.fb.tab = none := by
  have h := hterm.1
  rw [List.getLast?_eq_getElem?, show samples.length - 1 = k by omega, he] at h
  simpa using h

end EventLemmas

section PatternLemmas
variable {α : Type} [LinearOrderedField α]

/-- The tick is before the offset of the event at the cursor. -/
lemma next_frame_early {samples : List (Sample α)} {st : Machine α} {i : Int} {cur : Sample α}
    (hcur : samples[st.p.s]? = some cur) (hi : i < cur.frame) :
    Pattern_next_frame samples st i = some (⟨0, 0⟩, st) := by
  simp only [Pattern_next_frame, hcur, if_pos hi]

/-- The tick has reached the offset of the next event and that event is a sentinel. -/
lemma next_frame_sentinel {samples : List (Sample α)} {st : Machine α} {i : Int}
    {cur nxt : Sample α} (hcur : samples[st.p.s]? = some cur)
    (hnxt : samples[st.p.s + 1]? = some nxt) (hlo : cur.frame ≤ i) (hhi : nxt.frame ≤ i)
    (htab : nxt.fb.tab = none) :
    Pattern_next_frame samples st i =
      some (⟨0, 0⟩, { st with p := { st.p with s := st.p.s + 1 } }) := by
  have h1 : ¬ i < cur.frame := by omega
  have h2 : i ≥ nxt.frame := hhi
  simp only [Pattern_next_frame, hcur, if_neg h1, hnxt, if_pos h2, htab]

/-- The tick is within the span of the event at the cursor. -/
lemma next_frame_render {samples : List (Sample α)} {st : Machine α} {i : Int}
    {cur nxt : Sample α} {tab : FrameBuilderDefinition α} {fr : Frame α} {w : World α}
    (hcur : samples[st.p.s]? = some cur)
    (hnxt : samples[st.p.s + 1]? = some nxt) (hlo : cur.frame ≤ i) (hhi : i < nxt.frame)
    (htab : cur.fb.tab = some tab)
    (hnext : tab.next st.world cur.fb.ud (SAMPLE_RATE : α) st.p.frame = some (fr, w)) :
    Pattern_next_frame samples st i =
      some (fr, { p := { s := st.p.s, frame := st.p.frame + 1 }
                  world := w
                  calls := st.calls ++ [Call.next st.p.s st.p.frame] }) := by
  have h1 : ¬ i < cur.frame := by omega
  have h2 : ¬ i ≥ nxt.frame := by omega
  simp only [Pattern_next_frame, hcur, if_neg h1, hnxt, if_neg h2, Pattern_render, htab, hnext]

/-- The tick has reached the offset of the next event and that event has a voice. -/
lemma next_frame_advance {samples : List (Sample α)} {st : Machine α} {i : Int}
    {cur nxt : Sample α} {tab : FrameBuilderDefinition α} {fr : Frame α} {w1 w2 : World α}
    (hcur : samples[st.p.s]? = some cur)
    (hnxt : samples[st.p.s + 1]? = some nxt) (hlo : cur.frame ≤ i) (hhi : nxt.frame ≤ i)
    (htab : nxt.fb.tab = some tab)
    (hstart : tab.start st.world nxt.fb.ud = some w1)
    (hnext : tab.next w1 nxt.fb.ud (SAMPLE_RATE : α) 0 = some (fr, w2)) :
    Pattern_next_frame samples st i =
      some (fr, { p := { s := st.p.s + 1, frame := 1 }
                  world := w2
                  calls := st.calls ++ [Call.start (st.p.s + 1), Call.next (st.p.s + 1) 0] }) := by
  have h1 : ¬ i < cur.frame := by omega
  have h2 : i ≥ nxt.frame := hhi
  simp only [Pattern_next_frame, hcur, if_neg h1, hnxt, if_pos h2, htab, hstart, Pattern_render,
    hnext, zero_add, List.append_assoc, List.singleton_append]

/-- A run of `n + 1` ticks is a run of `n` ticks followed by one more call. -/
lemma Pattern_run_succ (samples : List (Sample α)) (n : Nat) :
    ∀ (st : Machine α) (i : Int),
    Pattern_run samples st i (n + 1) =
      match Pattern_run samples st i n with
      | none => none
      | some (frs, st1) =>
        match Pattern_next_frame samples st1 (i + n) with
        | none => none
        | some (fr, st2) => some (frs ++ [fr], st2) := by
  induction n with
  | zero =>
    intro st i
    simp only [Pattern_run, Nat.cast_zero, add_zero]
    cases Pattern_next_frame samples st i with
    | none => rfl
    | some r => rfl
  | succ n ih =>
    intro st i
    rw [Pattern_run]
    cases hstep : Pattern_next_frame samples st i with
    | none => simp only [Pattern_run, hstep]
    | some r =>
      obtain ⟨fr, st1⟩ := r
      simp only [ih st1 (i + 1)]
      conv_rhs => rw [Pattern_run]
      simp only [hstep]
      cases Pattern_run samples st1 (i + 1) n with
      | none => rfl
      | some r2 =>
        obtain ⟨frs, st2⟩ := r2
        have e : i + 1 + (n : Int) = i + ((n + 1 : Nat) : Int) := by push_cast; ring
        simp only [e]
        cases Pattern_next_frame samples st2 (i + ((n + 1 : Nat) : Int)) with
        | none => rfl
        | some r3 => rfl

end PatternLemmas

section OffsetLemmas
variable {α : Type}

lemma offset_le_of_le {samples : List (Sample α)} (hstrict : StrictOffsets samples) {a b : Nat}
    (hab : a ≤ b) (hb : b < samples.length) : offset samples a ≤ offset samples b := by
  rcases Nat.eq_or_lt_of_le hab with rfl | hlt
  · exact le_refl _
  · exact (offset_lt_of_lt hstrict hlt hb).le

end OffsetLemmas

section ScheduleLemmas
variable {α : Type} [LinearOrderedField α]

/-- One call on a strictly increasing schedule, from a machine whose cursor `s` and
counter agree with the tick `i`: the call returns, lands on the event `k` whose span
holds `i`, and renders it with counter `i - o_k`, after a `start` exactly when `i`
is the offset of an event other than the first. -/
lemma schedule_step {samples : List (Sample α)} (hterm : SentinelTerminated samples)
    (hvoices : VoicesReturn samples) (hstrict : StrictOffsets samples) (st : Machine α) (i : Int)
    (hs : st.p.s + 1 < samples.length) (h1 : offset samples st.p.s ≤ i)
    (h2 : 1 ≤ st.p.s → offset samples st.p.s < i) (h3 : i ≤ offset samples (st.p.s + 1))
    (hfr : st.p.frame = i - offset samples st.p.s)
    (hend : i < offset samples (samples.length - 1)) :
    ∃ fr st1 k e tab w0,
      Pattern_next_frame samples st i = some (fr, st1) ∧
      st1.p.s = k ∧ k + 1 < samples.length ∧ offset samples k ≤ i ∧ i < offset samples (k + 1) ∧
      st1.p.frame = i + 1 - offset samples k ∧
      st1.calls = st.calls ++ (if 1 ≤ k ∧ i = offset samples k then [Call.start k] else []) ++
        [Call.next k (i - offset samples k)] ∧
      samples[k]? = some e ∧ e.fb.tab = some tab ∧
      (if 1 ≤ k ∧ i = offset samples k then tab.start st.world e.fb.ud else some st.world) =
        some w0 ∧
      tab.next w0 e.fb.ud (SAMPLE_RATE : α) (i - offset samples k) = some (fr, st1.world) := by
  obtain ⟨cur, hcur, hcurmem⟩ := getElem?_of_lt samples (show st.p.s < samples.length by omega)
  obtain ⟨nxt, hnxt, hnxtmem⟩ := getElem?_of_lt samples hs
  have ocur := offset_of_getElem? hcur
  have onxt := offset_of_getElem? hnxt
  by_cases hlt : i < offset samples (st.p.s + 1)
  · obtain ⟨tab, htab⟩ := tab_of_not_last hterm hs hcur
    obtain ⟨r, hr⟩ := Option.isSome_iff_exists.mp
      ((hvoices cur hcurmem tab htab).2 st.world (SAMPLE_RATE : α) st.p.frame)
    obtain ⟨fr, w⟩ := r
    have hcond : ¬ (1 ≤ st.p.s ∧ i = offset samples st.p.s) := by
      intro hc
      have := h2 hc.1
      omega
    refine ⟨fr, _, st.p.s, cur, tab, st.world,
      next_frame_render hcur hnxt (by omega) (by omega) htab hr, rfl, hs, h1, hlt, ?_, ?_, hcur,
      htab, ?_, ?_⟩
    · simp only [hfr]; ring
    · simp only [if_neg hcond, List.append_nil, hfr]
    · simp only [if_neg hcond]
    · rw [← hfr]; exact hr
  · have heq : i = offset samples (st.p.s + 1) := by omega
    have hs2 : st.p.s + 1 + 1 < samples.length := by
      by_contra hcon
      have : st.p.s + 1 = samples.length - 1 := by omega
      rw [← this] at hend
      omega
    obtain ⟨tab, htab⟩ := tab_of_not_last hterm hs2 hnxt
    obtain ⟨w1, hw1⟩ := Option.isSome_iff_exists.mp ((hvoices nxt hnxtmem tab htab).1 st.world)
    obtain ⟨r, hr⟩ := Option.isSome_iff_exists.mp
      ((hvoices nxt hnxtmem tab htab).2 w1 (SAMPLE_RATE : α) 0)
    obtain ⟨fr, w2⟩ := r
    have hcond : 1 ≤ st.p.s + 1 ∧ i = offset samples (st.p.s + 1) := ⟨by omega, heq⟩
    have hnext2 := offset_lt_of_lt hstrict (show st.p.s + 1 < st.p.s + 1 + 1 by omega) hs2
    refine ⟨fr, _, st.p.s + 1, nxt, tab, w1,
      next_frame_advance hcur hnxt (by omega) (by omega) htab hw1 hr, rfl, hs2, by omega,
      by omega, ?_, ?_, hnxt, htab, ?_, ?_⟩
    · simp only; omega
    · simp only [if_pos hcond, List.append_assoc, List.singleton_append]
      rw [← heq, sub_self]
    · simp only [if_pos hcond]; exact hw1
    · rw [← heq, sub_self]; exact hr

/-- The machine after the ticks `0 .. n - 1` of a strictly increasing schedule
starting at offset 0, for `n` up to the offset of the sentinel. -/
lemma schedule_run {samples : List (Sample α)} (hterm : SentinelTerminated samples)
    (hvoices : VoicesReturn samples) (hstrict : StrictOffsets samples)
    (hzero : offset samples 0 = 0) (hlen : 2 ≤ samples.length) (w : World α) (n : Nat)
    (hn : (n : Int) ≤ offset samples (samples.length - 1)) :
    ∃ frs st, Pattern_run samples (Pattern_init w) 0 n = some (frs, st) ∧
      st.p.s + 1 < samples.length ∧ offset samples st.p.s ≤ n ∧
      (1 ≤ st.p.s → offset samples st.p.s < n) ∧ (n : Int) ≤ offset samples (st.p.s + 1) ∧
      st.p.frame = n - offset samples st.p.s := by
  induction n with
  | zero =>
    have h01 := offset_lt_of_lt hstrict (show 0 < 1 by omega) (show 1 < samples.length by omega)
    refine ⟨[], Pattern_init w, rfl, by simpa [Pattern_init] using hlen, ?_, ?_, ?_, ?_⟩
    · simp [Pattern_init, hzero]
    · simp [Pattern_init]
    · simp only [Pattern_init, Nat.cast_zero, zero_add]; omega
    · simp [Pattern_init, hzero]
  | succ n ih =>
    obtain ⟨frs, st, hrun, hs, h1, h2, h3, hfr⟩ := ih (by push_cast at hn; omega)
    obtain ⟨fr, st1, k, e, tab, w0, hstep, hk, hk1, hlo, hhi, hfr1, _⟩ :=
      schedule_step hterm hvoices hstrict st (n : Int) hs h1 h2 h3 hfr (by push_cast at hn; omega)
    refine ⟨frs ++ [fr], st1, ?_, ?_, ?_, ?_, ?_, ?_⟩
    · rw [Pattern_run_succ, hrun]
      simp only [zero_add, hstep]
    · rw [hk]; exact hk1
    · rw [hk]; push_cast; omega
    · intro _; rw [hk]; push_cast; omega
    · rw [hk]; push_cast; omega
    · rw [hfr1, hk]; push_cast; ring

end ScheduleLemmas

/-- C1: on an event array that ends with the sentinel, whose events before it have
voices that return, and whose offsets increase strictly from `o_0 = 0`, started with
the cursor on `e_0` and counter 0 and called with the ticks `0, 1, ...` in order: for
every tick `i` and the event `e_k` with `o_k ≤ i < o_(k+1)`, the calls before tick
`i` return, the call with tick `i` returns, and it renders the voice of `e_k` with
the elapsed counter `i - o_k`: the calls it records are a `start` of `e_k` exactly
when `i = o_k` and `k ≥ 1`, followed by `next` of `e_k` with `i - o_k`; the frame it
returns is the one that `next` of `e_k` returned, and the cursor is left on `e_k`. -/
theorem Pattern_next_frame_follows_schedule {α : Type} [LinearOrderedField α]
    (samples : List (Sample α)) (w : World α) (k i : Nat)
    (hterm : SentinelTerminated samples) (hvoices : VoicesReturn samples)
    (hstrict : StrictOffsets samples) (hzero : offset samples 0 = 0)
    (hk : k + 1 < samples.length) (hlo : offset samples k ≤ i)
    (hhi : (i : Int) < offset samples (k + 1)) :
    ∃ frs st fr st1 e tab w0,
      Pattern_run samples (Pattern_init w) 0 i = some (frs, st) ∧
      Pattern_next_frame samples st i = some (fr, st1) ∧
      st1.calls = st.calls ++
        (if 1 ≤ k ∧ (i : Int) = offset samples k then [Call.start k] else []) ++
        [Call.next k (i - offset samples k)] ∧
      samples[k]? = some e ∧ e.fb.tab = some tab ∧
      (if 1 ≤ k ∧ (i : Int) = offset samples k then tab.start st.world e.fb.ud
        else some st.world) = some w0 ∧
      tab.next w0 e.fb.ud (SAMPLE_RATE : α) (i - offset samples k) = some (fr, st1.world) ∧
      st1.p.s = k ∧ st1.p.frame = i - offset samples k + 1 := by
  have hlast : offset samples (k + 1) ≤ offset samples (samples.length - 1) :=
    offset_le_of_le hstrict (by omega) (by omega)
  obtain ⟨frs, st, hrun, hs, h1, h2, h3, hfr⟩ :=
    schedule_run hterm hvoices hstrict hzero (by omega) w i (by omega)
  obtain ⟨fr, st1, k1, e, tab, w0, hstep, hk1, hk1len, hlo1, hhi1, hfr1, hcalls, he, htab,
    hw0, hnext⟩ :=
    schedule_step hterm hvoices hstrict st (i : Int) hs h1 h2 h3 hfr (by omega)
  have hkk : k1 = k := by
    rcases Nat.lt_trichotomy k1 k with hlt | heq | hgt
    · have := offset_le_of_le hstrict (show k1 + 1 ≤ k by omega) (by omega)
      omega
    · exact heq
    · have := offset_le_of_le hstrict (show k + 1 ≤ k1 by omega) (by omega)
      omega
  subst hkk
  exact ⟨frs, st, fr, st1, e, tab, w0, hrun, hstep, hcalls, he, htab, hw0, hnext, hk1,
    by rw [hfr1]; ring⟩

section ExampleEvents
variable {α : Type}

lemma exampleEvents_terminated (tab : FrameBuilderDefinition α) :
    SentinelTerminated (exampleEvents tab) := by
  constructor <;> rfl

lemma exampleEvents_strict (tab : FrameBuilderDefinition α) :
    StrictOffsets (exampleEvents tab) := by
  simp [StrictOffsets, exampleEvents]

end ExampleEvents

section DrumTable
variable {α : Type} [LinearOrderedField α]

/-- The drum table returns on every non-`NULL` user data. -/
lemma FrameBuilder_drum_returns (m : Libm α) (RAND_MAX : Nat) (rand : Nat → Nat) (a : Nat) :
    (∀ w, ((FrameBuilder_drum m RAND_MAX rand).start w (some a)).isSome = true) ∧
    (∀ w sampleRate f,
      ((FrameBuilder_drum m RAND_MAX rand).next w (some a) sampleRate f).isSome = true) :=
  ⟨fun _ => rfl, fun _ _ _ => rfl⟩

lemma exampleEvents_voices (m : Libm α) (RAND_MAX : Nat) (rand : Nat → Nat) :
    VoicesReturn (exampleEvents (FrameBuilder_drum m RAND_MAX rand)) := by
  intro e he tab htab
  simp only [exampleEvents, List.mem_cons, List.mem_singleton, List.not_mem_nil, or_false] at he
  rcases he with rfl | rfl | rfl
  · simp only [Option.some.injEq] at htab
    subst htab
    exact FrameBuilder_drum_returns m RAND_MAX rand 0
  · simp only [Option.some.injEq] at htab
    subst htab
    exact FrameBuilder_drum_returns m RAND_MAX rand 1
  · simp at htab

end DrumTable

/-- Witness of C1: tick 13 of the example `[{0, A}, {10, B}, {20, sentinel}]` with
drum voices renders `B` with counter 3. -/
theorem Pattern_next_frame_follows_schedule_witness :
    ∃ frs st fr st1 e tab w0,
      Pattern_run (exampleEvents (FrameBuilder_drum ⟨Real.sin, Real.exp, Real.pi⟩ 2147483647 id))
        (Pattern_init ⟨fun _ => ⟨1, 15, 110, 28, 1 / 10, 28, 1 / 2, 0⟩, 0⟩) 0 13 = some (frs, st) ∧
      Pattern_next_frame
        (exampleEvents (FrameBuilder_drum ⟨Real.sin, Real.exp, Real.pi⟩ 2147483647 id)) st
        ((13 : Nat) : Int) = some (fr, st1) ∧
      st1.calls = st.calls ++
        (if 1 ≤ 1 ∧ ((13 : Nat) : Int) =
            offset (exampleEvents (FrameBuilder_drum ⟨Real.sin, Real.exp, Real.pi⟩ 2147483647 id)) 1
          then [Call.start 1] else []) ++
        [Call.next 1 (((13 : Nat) : Int) -
          offset (exampleEvents (FrameBuilder_drum ⟨Real.sin, Real.exp, Real.pi⟩ 2147483647 id)) 1)] ∧
      (exampleEvents (FrameBuilder_drum ⟨Real.sin, Real.exp, Real.pi⟩ 2147483647 id))[1]? = some e ∧
      e.fb.tab = some tab ∧
      (if 1 ≤ 1 ∧ ((13 : Nat) : Int) =
          offset (exampleEvents (FrameBuilder_drum ⟨Real.sin, Real.exp, Real.pi⟩ 2147483647 id)) 1
        then tab.start st.world e.fb.ud else some st.world) = some w0 ∧
      tab.next w0 e.fb.ud ((SAMPLE_RATE : Int) : ℝ) (((13 : Nat) : Int) -
        offset (exampleEvents (FrameBuilder_drum ⟨Real.sin, Real.exp, Real.pi⟩ 2147483647 id)) 1) =
        some (fr, st1.world) ∧
      st1.p.s = 1 ∧
      st1.p.frame = ((13 : Nat) : Int) -
        offset (exampleEvents (FrameBuilder_drum ⟨Real.sin, Real.exp, Real.pi⟩ 2147483647 id)) 1 + 1 :=
  Pattern_next_frame_follows_schedule
    (exampleEvents (FrameBuilder_drum ⟨Real.sin, Real.exp, Real.pi⟩ 2147483647 id))
    ⟨fun _ => ⟨1, 15, 110, 28, 1 / 10, 28, 1 / 2, 0⟩, 0⟩ 1 13
    (exampleEvents_terminated _) (exampleEvents_voices _ _ _) (exampleEvents_strict _) rfl
    (by decide) (by decide) (by decide)


/-- C4 (as stated) fails after the tick that reaches the sentinel: on the example
`[{0, A}, {10, B}, {20, sentinel}]` with drum voices the ticks `0 .. 20` return and
leave the cursor on the sentinel (event 2), and the call with tick 21 does not
return a frame: it reads the offset of the event after the sentinel, outside the
array. So the run over the ticks `0 .. 21` yields no silent frame for tick 21. -/
theorem Pattern_next_frame_past_sentinel_faults :
    ∃ frs st,
      Pattern_run (exampleEvents (FrameBuilder_drum ⟨Real.sin, Real.exp, Real.pi⟩ 2147483647 id))
        (Pattern_init ⟨fun _ => ⟨1, 15, 110, 28, 1 / 10, 28, 1 / 2, 0⟩, 0⟩) 0 21 = some (frs, st) ∧
      st.p.s = 2 ∧
      Pattern_next_frame
        (exampleEvents (FrameBuilder_drum ⟨Real.sin, Real.exp, Real.pi⟩ 2147483647 id)) st 21 =
        none ∧
      Pattern_run (exampleEvents (FrameBuilder_drum ⟨Real.sin, Real.exp, Real.pi⟩ 2147483647 id))
        (Pattern_init ⟨fun _ => ⟨1, 15, 110, 28, 1 / 10, 28, 1 / 2, 0⟩, 0⟩) 0 22 = none := by
  obtain ⟨frs, st, hrun, hs, h1, h2, h3, _⟩ :=
    schedule_run
      (exampleEvents_terminated (FrameBuilder_drum ⟨Real.sin, Real.exp, Real.pi⟩ 2147483647 id))
      (exampleEvents_voices _ _ _) (exampleEvents_strict _) rfl (by decide)
      ⟨fun _ => ⟨1, 15, 110, 28, 1 / 10, 28, 1 / 2, 0⟩, 0⟩ 20 (by decide)
  have hs1 : st.p.s = 1 := by
    have hlen : st.p.s + 1 < 3 := hs
    have hcases : st.p.s = 0 ∨ st.p.s = 1 := by omega
    rcases hcases with h0 | h1'
    · rw [h0] at h3
      exact absurd h3 (by decide)
    · exact h1'
  have hstep20 : Pattern_next_frame
      (exampleEvents (FrameBuilder_drum ⟨Real.sin, Real.exp, Real.pi⟩ 2147483647 id)) st 20 =
      some (⟨0, 0⟩, { st with p := { st.p with s := st.p.s + 1 } }) :=
    @next_frame_sentinel _ _ _ st 20 ⟨10, ⟨some _, some 1⟩⟩ ⟨20, ⟨none, none⟩⟩
      (by rw [hs1]; rfl) (by rw [hs1]; rfl) (by decide) (by decide) rfl
  have hstep21 : Pattern_next_frame
      (exampleEvents (FrameBuilder_drum ⟨Real.sin, Real.exp, Real.pi⟩ 2147483647 id))
      { st with p := { st.p with s := st.p.s + 1 } } 21 = none := by
    simp only [Pattern_next_frame, hs1, exampleEvents]
    simp
  have hrun21 : Pattern_run
      (exampleEvents (FrameBuilder_drum ⟨Real.sin, Real.exp, Real.pi⟩ 2147483647 id))
      (Pattern_init ⟨fun _ => ⟨1, 15, 110, 28, 1 / 10, 28, 1 / 2, 0⟩, 0⟩) 0 21 =
      some (frs ++ [⟨0, 0⟩], { st with p := { st.p with s := st.p.s + 1 } }) := by
    rw [Pattern_run_succ, hrun]
    simp only [zero_add]
    rw [show ((20 : Nat) : Int) = 20 from rfl, hstep20]
  refine ⟨_, _, hrun21, by simp only [hs1], hstep21, ?_⟩
  rw [Pattern_run_succ, hrun21]
  simp only [zero_add]
  rw [show ((21 : Nat) : Int) = 21 from rfl, hstep21]

/-- C4 (amended): on an event array that ends with the sentinel, the call that puts
the cursor on the sentinel returns the silent frame `(0, 0)`, calls neither `start`
nor `next` of any voice, leaves the memory and the counter untouched and leaves the
cursor on the sentinel. Such a call returns: from the cursor on the last event
before the sentinel, every tick that has reached the offsets of that event and of
the sentinel is one; and no other call moves the cursor onto the sentinel. -/
theorem Pattern_next_frame_reaches_sentinel {α : Type} [LinearOrderedField α]
    (samples : List (Sample α)) (st : Machine α) (i : Int)
    (hterm : SentinelTerminated samples) (hs : st.p.s + 1 < samples.length) :
    (st.p.s + 2 = samples.length → offset samples st.p.s ≤ i → offset samples (st.p.s + 1) ≤ i →
      Pattern_next_frame samples st i =
        some (⟨0, 0⟩, { st with p := { st.p with s := st.p.s + 1 } })) ∧
    (∀ fr st1, Pattern_next_frame samples st i = some (fr, st1) →
      st1.p.s + 1 = samples.length →
      fr = ⟨0, 0⟩ ∧ st1 = { st with p := { st.p with s := st.p.s + 1 } }) := by
  obtain ⟨cur, hcur, _⟩ := getElem?_of_lt samples (show st.p.s < samples.length by omega)
  obtain ⟨nxt, hnxt, _⟩ := getElem?_of_lt samples hs
  have ocur := offset_of_getElem? hcur
  have onxt := offset_of_getElem? hnxt
  constructor
  · intro hlast h1 h2
    exact next_frame_sentinel hcur hnxt (by omega) (by omega)
      (tab_of_last hterm (by omega) hnxt)
  · intro fr st1 hstep hon
    by_cases hearly : i < cur.frame
    · rw [next_frame_early hcur hearly] at hstep
      simp only [Option.some.injEq, Prod.mk.injEq] at hstep
      rw [← hstep.2] at hon
      omega
    · by_cases hadv : i ≥ nxt.frame
      · cases htab : nxt.fb.tab with
        | none =>
          rw [next_frame_sentinel hcur hnxt (by omega) hadv htab] at hstep
          simp only [Option.some.injEq, Prod.mk.injEq] at hstep
          exact ⟨hstep.1.symm, hstep.2.symm⟩
        | some tab =>
          exfalso
          simp only [Pattern_next_frame, hcur, if_neg hearly, hnxt, if_pos hadv, htab,
            Pattern_render] at hstep
          cases hstart : tab.start st.world nxt.fb.ud with
          | none => simp [hstart] at hstep
          | some w1 =>
            simp only [hstart, hnxt, htab] at hstep
            cases hnext : tab.next w1 nxt.fb.ud (SAMPLE_RATE : α) 0 with
            | none => simp [hnext] at hstep
            | some r =>
              simp only [hnext, Option.some.injEq, Prod.mk.injEq] at hstep
              rw [← hstep.2] at hon
              have hnone := tab_of_last hterm (k := st.p.s + 1) (by simpa using hon) hnxt
              rw [htab] at hnone
              exact absurd hnone (by simp)
      · exfalso
        simp only [Pattern_next_frame, hcur, if_neg hearly, hnxt, if_neg hadv,
          Pattern_render] at hstep
        cases htab : cur.fb.tab with
        | none => simp [htab] at hstep
        | some tab =>
          simp only [htab] at hstep
          cases hnext : tab.next st.world cur.fb.ud (SAMPLE_RATE : α) st.p.frame with
          | none => simp [hnext] at hstep
          | some r =>
            simp only [hnext, Option.some.injEq, Prod.mk.injEq] at hstep
            rw [← hstep.2] at hon
            simp only at hon
            omega


/-- Witness of C4 (amended): tick 20 of the example `[{0, A}, {10, B}, {20, sentinel}]`
from the cursor on `B`. -/
theorem Pattern_next_frame_reaches_sentinel_witness :
    Pattern_next_frame
      (exampleEvents (FrameBuilder_drum ⟨Real.sin, Real.exp, Real.pi⟩ 2147483647 id))
      ⟨⟨1, 10⟩, ⟨fun _ => ⟨1, 15, 110, 28, 1 / 10, 28, 1 / 2, 0⟩, 40⟩, [Call.next 1 9]⟩ 20 =
      some (⟨0, 0⟩,
        ⟨⟨2, 10⟩, ⟨fun _ => ⟨1, 15, 110, 28, 1 / 10, 28, 1 / 2, 0⟩, 40⟩, [Call.next 1 9]⟩) :=
  (Pattern_next_frame_reaches_sentinel
    (exampleEvents (FrameBuilder_drum ⟨Real.sin, Real.exp, Real.pi⟩ 2147483647 id))
    ⟨⟨1, 10⟩, ⟨fun _ => ⟨1, 15, 110, 28, 1 / 10, 28, 1 / 2, 0⟩, 40⟩, [Call.next 1 9]⟩ 20
    (exampleEvents_terminated _) (by decide)).1 rfl (by decide) (by decide)

/-- C10: the first event is rendered without having been triggered. On the example
`[{0, A}, {10, B}, {20, sentinel}]` with drum voices, where the voice `A` (amplitude
1, no decay, frequency 0, no noise, limit 1) still holds the phase `π / 2` from
before, the call with tick 0 from the initial cursor makes the one call `next` of
event 0 with counter 0 and no `start`, and returns the frame `(1, 1)`, the sine of
the old phase; the same voice rendered after `Drum_start` gives `(0, 0)`. -/
theorem Pattern_next_frame_first_event_not_started :
    ∃ fr st1,
      Pattern_next_frame
        (exampleEvents (FrameBuilder_drum ⟨Real.sin, Real.exp, Real.pi⟩ 2147483647 id))
        (Pattern_init ⟨fun _ => ⟨1, 0, 0, 0, 0, 0, 1, Real.pi / 2⟩, 0⟩) 0 = some (fr, st1) ∧
      st1.calls = [Call.next 0 0] ∧ fr.left = 1 ∧ fr.right = 1 ∧
      (st1.world.drums 0).phase = Real.pi / 2 ∧
      (Drum_next ⟨Real.sin, Real.exp, Real.pi⟩ (Drum_start ⟨1, 0, 0, 0, 0, 0, 1, Real.pi / 2⟩)
        44100 0 (white_noise 2147483647 0) (white_noise 2147483647 1)).1.left = 0 ∧
      (Drum_next ⟨Real.sin, Real.exp, Real.pi⟩ (Drum_start ⟨1, 0, 0, 0, 0, 0, 1, Real.pi / 2⟩)
        44100 0 (white_noise 2147483647 0) (white_noise 2147483647 1)).1.right = 0 := by
  have hpi : 0 < Real.pi := Real.pi_pos
  have hwrap : ¬ (Real.pi / 2 ≥ 2 * Real.pi) := by
    intro h
    linarith
  have hstep := @next_frame_render _ _
    (exampleEvents (FrameBuilder_drum ⟨Real.sin, Real.exp, Real.pi⟩ 2147483647 id))
    (Pattern_init ⟨fun _ => ⟨1, 0, 0, 0, 0, 0, 1, Real.pi / 2⟩, 0⟩) 0
    ⟨0, ⟨some (FrameBuilder_drum ⟨Real.sin, Real.exp, Real.pi⟩ 2147483647 id), some 0⟩⟩
    ⟨10, ⟨some (FrameBuilder_drum ⟨Real.sin, Real.exp, Real.pi⟩ 2147483647 id), some 1⟩⟩
    _ _ _ rfl rfl (by decide) (by decide) rfl rfl
  refine ⟨_, _, hstep, rfl, ?_, ?_, ?_, ?_, ?_⟩
  · simp [Pattern_init, Drum_next, clampf, maxf, minf]
  · simp [Pattern_init, Drum_next, clampf, maxf, minf]
  · simp [Pattern_init, Drum_next, TWO_PI, hwrap]
  · norm_num [Drum_start, Drum_next, clampf, maxf, minf]
  · norm_num [Drum_start, Drum_next, clampf, maxf, minf]


section EnvelopeLemmas
variable {α : Type} [LinearOrderedField α]

/-- `Drum_next` written with its named parts. -/
lemma Drum_next_eq_parts (m : Libm α) (bd : Drum α) (sampleRate : α) (f : Int) (wn1 wn2 : α) :
    Drum_next m bd sampleRate f wn1 wn2 =
      ({ left := clampf (-bd.limit) bd.limit
            (bd.amplitude * v_envelope m bd sampleRate f *
              (m.sin bd.phase * (1 - bd.noiseAmount) +
                (7 / 10) * (bd.noiseAmount * wn1 * n_envelope m bd sampleRate f +
                  bd.noiseAmount * wn2 * n_envelope m bd sampleRate f) +
                bd.noiseAmount * wn1 * n_envelope m bd sampleRate f * (3 / 10)))
         right := clampf (-bd.limit) bd.limit
            (bd.amplitude * v_envelope m bd sampleRate f *
              (m.sin bd.phase * (1 - bd.noiseAmount) +
                (7 / 10) * (bd.noiseAmount * wn1 * n_envelope m bd sampleRate f +
                  bd.noiseAmount * wn2 * n_envelope m bd sampleRate f) +
                bd.noiseAmount * wn2 * n_envelope m bd sampleRate f * (3 / 10))) },
       { bd with
         phase :=
           if bd.phase + phase_advance m bd sampleRate f ≥ TWO_PI m then
             bd.phase + phase_advance m bd sampleRate f - TWO_PI m
           else bd.phase + phase_advance m bd sampleRate f }) :=
  rfl

end EnvelopeLemmas

section RealEnvelope

/-- An exponential decay `exp(-d * f / r)` with `d > 0`, `r > 0`: positive, at most 1
from `f = 0` on, and not increasing in `f`. -/
lemma decay_bounds (d r : ℝ) (hd : 0 < d) (hr : 0 < r) (f g : Int) (hf : 0 ≤ f) (hfg : f ≤ g) :
    0 < Real.exp (-d * (f : ℝ) / r) ∧ Real.exp (-d * (f : ℝ) / r) ≤ 1 ∧
    Real.exp (-d * (g : ℝ) / r) ≤ Real.exp (-d * (f : ℝ) / r) := by
  have hf0 : (0 : ℝ) ≤ (f : ℝ) := by exact_mod_cast hf
  have hfg0 : (f : ℝ) ≤ (g : ℝ) := by exact_mod_cast hfg
  refine ⟨Real.exp_pos _, ?_, ?_⟩
  · rw [Real.exp_le_one_iff]
    apply div_nonpos_of_nonpos_of_nonneg _ hr.le
    nlinarith
  · rw [Real.exp_le_exp]
    apply div_le_div_of_nonneg_right _ hr.le
    nlinarith

end RealEnvelope

/-- C13: for a drum with `envDecay > 0` and `noiseDecay > 0`, a positive sample rate
and an elapsed frame count `f ≥ 0`, the amplitude envelope `v_envelope` and the
noise envelope `n_envelope` that `Drum_next` computes are each `> 0` and `≤ 1`, and
at every later count `g ≥ f` each envelope is at most what it is at `f` (arithmetic
over the reals). -/
theorem Drum_envelopes_bounded_monotone (bd : Drum ℝ) (sampleRate : ℝ) (f g : Int)
    (henv : 0 < bd.envDecay) (hnoise : 0 < bd.noiseDecay) (hrate : 0 < sampleRate)
    (hf : 0 ≤ f) (hfg : f ≤ g) :
    (0 < v_envelope ⟨Real.sin, Real.exp, Real.pi⟩ bd sampleRate f ∧
      v_envelope ⟨Real.sin, Real.exp, Real.pi⟩ bd sampleRate f ≤ 1) ∧
    (0 < n_envelope ⟨Real.sin, Real.exp, Real.pi⟩ bd sampleRate f ∧
      n_envelope ⟨Real.sin, Real.exp, Real.pi⟩ bd sampleRate f ≤ 1) ∧
    v_envelope ⟨Real.sin, Real.exp, Real.pi⟩ bd sampleRate g ≤
      v_envelope ⟨Real.sin, Real.exp, Real.pi⟩ bd sampleRate f ∧
    n_envelope ⟨Real.sin, Real.exp, Real.pi⟩ bd sampleRate g ≤
      n_envelope ⟨Real.sin, Real.exp, Real.pi⟩ bd sampleRate f := by
  obtain ⟨hv0, hv1, hvm⟩ := decay_bounds bd.envDecay sampleRate henv hrate f g hf hfg
  obtain ⟨hn0, hn1, hnm⟩ := decay_bounds bd.noiseDecay sampleRate hnoise hrate f g hf hfg
  exact ⟨⟨hv0, hv1⟩, ⟨hn0, hn1⟩, hvm, hnm⟩

/-- Witness of C13: the bass drum of `main` at the elapsed counts 3 and 7. -/
theorem Drum_envelopes_bounded_monotone_witness :
    (0 < v_envelope ⟨Real.sin, Real.exp, Real.pi⟩ ⟨1, 15, 110, 28, 1 / 10, 28, 1 / 2, 0⟩ 44100 3 ∧
      v_envelope ⟨Real.sin, Real.exp, Real.pi⟩ ⟨1, 15, 110, 28, 1 / 10, 28, 1 / 2, 0⟩ 44100 3 ≤ 1) ∧
    (0 < n_envelope ⟨Real.sin, Real.exp, Real.pi⟩ ⟨1, 15, 110, 28, 1 / 10, 28, 1 / 2, 0⟩ 44100 3 ∧
      n_envelope ⟨Real.sin, Real.exp, Real.pi⟩ ⟨1, 15, 110, 28, 1 / 10, 28, 1 / 2, 0⟩ 44100 3 ≤ 1) ∧
    v_envelope ⟨Real.sin, Real.exp, Real.pi⟩ ⟨1, 15, 110, 28, 1 / 10, 28, 1 / 2, 0⟩ 44100 7 ≤
      v_envelope ⟨Real.sin, Real.exp, Real.pi⟩ ⟨1, 15, 110, 28, 1 / 10, 28, 1 / 2, 0⟩ 44100 3 ∧
    n_envelope ⟨Real.sin, Real.exp, Real.pi⟩ ⟨1, 15, 110, 28, 1 / 10, 28, 1 / 2, 0⟩ 44100 7 ≤
      n_envelope ⟨Real.sin, Real.exp, Real.pi⟩ ⟨1, 15, 110, 28, 1 / 10, 28, 1 / 2, 0⟩ 44100 3 :=
  Drum_envelopes_bounded_monotone ⟨1, 15, 110, 28, 1 / 10, 28, 1 / 2, 0⟩ 44100 3 7
    (by norm_num) (by norm_num) (by norm_num) (by decide) (by decide)

/-- C17: if the phase is in `[0, 2π)` before a `Drum_next` call at a positive sample
rate and the instantaneous frequency `currentFrequency` of that call is at least 0
and below the sample rate, then the phase is in `[0, 2π)` after the call: taking
`2π` off once is enough (arithmetic over the reals). -/
theorem Drum_next_single_wrap_suffices (bd : Drum ℝ) (sampleRate : ℝ) (f : Int) (wn1 wn2 : ℝ)
    (hrate : 0 < sampleRate) (h0 : 0 ≤ bd.phase) (h1 : bd.phase < 2 * Real.pi)
    (hlo : 0 ≤ currentFrequency ⟨Real.sin, Real.exp, Real.pi⟩ bd sampleRate f)
    (hhi : currentFrequency ⟨Real.sin, Real.exp, Real.pi⟩ bd sampleRate f < sampleRate) :
    0 ≤ (Drum_next ⟨Real.sin, Real.exp, Real.pi⟩ bd sampleRate f wn1 wn2).2.phase ∧
    (Drum_next ⟨Real.sin, Real.exp, Real.pi⟩ bd sampleRate f wn1 wn2).2.phase < 2 * Real.pi :=
  Drum_next_phase_step bd sampleRate f wn1 wn2 hrate h0 h1 hlo hhi

/-- Witness of C17: the snare drum of `main` with phase 6 at elapsed count 0. -/
theorem Drum_next_single_wrap_suffices_witness :
    0 ≤ (Drum_next ⟨Real.sin, Real.exp, Real.pi⟩
      ⟨3 / 5, 15, 279, 45, 1 / 2, 101 / 10, 2 / 5, 6⟩ 44100 0 0 0).2.phase ∧
    (Drum_next ⟨Real.sin, Real.exp, Real.pi⟩
      ⟨3 / 5, 15, 279, 45, 1 / 2, 101 / 10, 2 / 5, 6⟩ 44100 0 0 0).2.phase < 2 * Real.pi :=
  Drum_next_single_wrap_suffices ⟨3 / 5, 15, 279, 45, 1 / 2, 101 / 10, 2 / 5, 6⟩ 44100 0 0 0
    (by norm_num) (by norm_num) (by have := Real.pi_gt_three; show (6 : ℝ) < 2 * Real.pi; linarith)
    (by simp [currentFrequency]) (by simp [currentFrequency]; norm_num)

/-- C19: with `noiseAmount = 0`, `Drum_next` called from the same drum with the same
sample rate and elapsed count returns the same frame and the same updated drum
(so the same new phase) for any two pairs of noise draws, and the two samples of
the frame are equal (arithmetic over the reals). -/
theorem Drum_next_without_noise (bd : Drum ℝ) (sampleRate : ℝ) (f : Int) (wn1 wn2 wn3 wn4 : ℝ)
    (hnoise : bd.noiseAmount = 0) :
    Drum_next ⟨Real.sin, Real.exp, Real.pi⟩ bd sampleRate f wn1 wn2 =
      Drum_next ⟨Real.sin, Real.exp, Real.pi⟩ bd sampleRate f wn3 wn4 ∧
    (Drum_next ⟨Real.sin, Real.exp, Real.pi⟩ bd sampleRate f wn1 wn2).1.left =
      (Drum_next ⟨Real.sin, Real.exp, Real.pi⟩ bd sampleRate f wn1 wn2).1.right := by
  constructor <;> simp [Drum_next, hnoise]

/-- Witness of C19: a drum with no noise, drawn `(1, -1)` and `(1/2, 1/4)`. -/
theorem Drum_next_without_noise_witness :
    Drum_next ⟨Real.sin, Real.exp, Real.pi⟩ ⟨1, 15, 110, 28, 0, 28, 1 / 2, 0⟩ 44100 3 1 (-1) =
      Drum_next ⟨Real.sin, Real.exp, Real.pi⟩ ⟨1, 15, 110, 28, 0, 28, 1 / 2, 0⟩ 44100 3
        (1 / 2) (1 / 4) ∧
    (Drum_next ⟨Real.sin, Real.exp, Real.pi⟩ ⟨1, 15, 110, 28, 0, 28, 1 / 2, 0⟩ 44100 3 1 (-1)).1.left =
      (Drum_next ⟨Real.sin, Real.exp, Real.pi⟩ ⟨1, 15, 110, 28, 0, 28, 1 / 2, 0⟩ 44100 3 1
        (-1)).1.right :=
  Drum_next_without_noise ⟨1, 15, 110, 28, 0, 28, 1 / 2, 0⟩ 44100 3 1 (-1) (1 / 2) (1 / 4) rfl


section WrapLemmas
variable {α : Type} [LinearOrderedField α]

/-- One `Drum_next` call adds the phase advance and takes off nothing or `TWO_PI`. -/
lemma Drum_next_phase_cases (m : Libm α) (bd : Drum α) (sampleRate : α) (f : Int) (wn1 wn2 : α) :
    (Drum_next m bd sampleRate f wn1 wn2).2.phase = bd.phase + phase_advance m bd sampleRate f ∨
    (Drum_next m bd sampleRate f wn1 wn2).2.phase =
      bd.phase + phase_advance m bd sampleRate f - TWO_PI m := by
  rw [Drum_next_eq_parts]
  by_cases h : bd.phase + phase_advance m bd sampleRate f ≥ TWO_PI m
  · right; simp only [if_pos h]
  · left; simp only [if_neg h]

lemma Drum_run_phase_mod (m : Libm α) (sampleRate : α) (calls : List (Int × α × α)) :
    ∀ bd : Drum α, ∃ c : Nat, c ≤ calls.length ∧
      (Drum_run m sampleRate bd calls).phase =
        bd.phase + unwrapped_phase m bd sampleRate calls - (c : α) * TWO_PI m := by
  induction calls with
  | nil =>
    intro bd
    exact ⟨0, le_refl _, by simp [Drum_run, unwrapped_phase]⟩
  | cons call rest ih =>
    intro bd
    obtain ⟨f, wn1, wn2⟩ := call
    obtain ⟨c, hc, hphase⟩ := ih (Drum_next m bd sampleRate f wn1 wn2).2
    have hsame : unwrapped_phase m (Drum_next m bd sampleRate f wn1 wn2).2 sampleRate rest =
        unwrapped_phase m bd sampleRate rest := by
      clear hphase hc ih
      induction rest with
      | nil => rfl
      | cons r rs ihr => simp only [unwrapped_phase, ihr]; rfl
    simp only [Drum_run, unwrapped_phase]
    rw [hphase, hsame]
    rcases Drum_next_phase_cases m bd sampleRate f wn1 wn2 with h | h
    · refine ⟨c, by simp only [List.length_cons]; omega, ?_⟩
      rw [h]; ring
    · refine ⟨c + 1, by simp only [List.length_cons]; omega, ?_⟩
      rw [h]; push_cast; ring

end WrapLemmas

/-- C15: for every drum, positive sample rate and elapsed counts `f_0 .. f_(n-1)`,
each `Drum_next` call adds `2π * frequency * exp(-freqDecay * f / sampleRate) /
sampleRate` to the phase and takes off either nothing or exactly `2π`; so the phase
after `Drum_start` and the `n` calls is the unwrapped sum of the advances minus
`c * 2π` for a whole number `c ≤ n` (arithmetic over the reals). -/
theorem Drum_phase_modulo_two_pi (bd : Drum ℝ) (sampleRate : ℝ) (calls : List (Int × ℝ × ℝ))
    (_hrate : 0 < sampleRate) :
    (∀ (d : Drum ℝ) (f : Int) (wn1 wn2 : ℝ),
      (Drum_next ⟨Real.sin, Real.exp, Real.pi⟩ d sampleRate f wn1 wn2).2.phase =
        d.phase + 2 * Real.pi * (d.frequency * Real.exp (-d.freqDecay * (f : ℝ) / sampleRate)) /
          sampleRate ∨
      (Drum_next ⟨Real.sin, Real.exp, Real.pi⟩ d sampleRate f wn1 wn2).2.phase =
        d.phase + 2 * Real.pi * (d.frequency * Real.exp (-d.freqDecay * (f : ℝ) / sampleRate)) /
          sampleRate - 2 * Real.pi) ∧
    ∃ c : Nat, c ≤ calls.length ∧
      (Drum_run ⟨Real.sin, Real.exp, Real.pi⟩ sampleRate (Drum_start bd) calls).phase =
        unwrapped_phase ⟨Real.sin, Real.exp, Real.pi⟩ bd sampleRate calls -
          (c : ℝ) * (2 * Real.pi) ∧
      unwrapped_phase ⟨Real.sin, Real.exp, Real.pi⟩ bd sampleRate calls =
        (calls.map fun call =>
          2 * Real.pi * (bd.frequency * Real.exp (-bd.freqDecay * (call.1 : ℝ) / sampleRate)) /
            sampleRate).sum := by
  constructor
  · intro d f wn1 wn2
    exact Drum_next_phase_cases ⟨Real.sin, Real.exp, Real.pi⟩ d sampleRate f wn1 wn2
  · obtain ⟨c, hc, hphase⟩ :=
      Drum_run_phase_mod ⟨Real.sin, Real.exp, Real.pi⟩ sampleRate calls (Drum_start bd)
    have hsame : ∀ l : List (Int × ℝ × ℝ),
        unwrapped_phase ⟨Real.sin, Real.exp, Real.pi⟩ (Drum_start bd) sampleRate l =
          unwrapped_phase ⟨Real.sin, Real.exp, Real.pi⟩ bd sampleRate l := by
      intro l
      induction l with
      | nil => rfl
      | cons r rs ihr => simp only [unwrapped_phase, ihr]; rfl
    have hsum : ∀ l : List (Int × ℝ × ℝ),
        unwrapped_phase ⟨Real.sin, Real.exp, Real.pi⟩ bd sampleRate l =
          (l.map fun call =>
            2 * Real.pi * (bd.frequency * Real.exp (-bd.freqDecay * (call.1 : ℝ) / sampleRate)) /
              sampleRate).sum := by
      intro l
      induction l with
      | nil => rfl
      | cons r rs ihr => simp only [unwrapped_phase, ihr, List.map_cons, List.sum_cons]; rfl
    refine ⟨c, hc, ?_, hsum calls⟩
    rw [hphase, hsame]
    simp [Drum_start, TWO_PI]

/-- Witness of C15: the bass drum of `main` rendered at the elapsed counts 0 and 1. -/
theorem Drum_phase_modulo_two_pi_witness :
    (∀ (d : Drum ℝ) (f : Int) (wn1 wn2 : ℝ),
      (Drum_next ⟨Real.sin, Real.exp, Real.pi⟩ d 44100 f wn1 wn2).2.phase =
        d.phase + 2 * Real.pi * (d.frequency * Real.exp (-d.freqDecay * (f : ℝ) / 44100)) /
          44100 ∨
      (Drum_next ⟨Real.sin, Real.exp, Real.pi⟩ d 44100 f wn1 wn2).2.phase =
        d.phase + 2 * Real.pi * (d.frequency * Real.exp (-d.freqDecay * (f : ℝ) / 44100)) /
          44100 - 2 * Real.pi) ∧
    ∃ c : Nat, c ≤ [((0 : Int), (0 : ℝ), (0 : ℝ)), (1, 0, 0)].length ∧
      (Drum_run ⟨Real.sin, Real.exp, Real.pi⟩ 44100
        (Drum_start ⟨1, 15, 110, 28, 1 / 10, 28, 1 / 2, 0⟩) [(0, 0, 0), (1, 0, 0)]).phase =
        unwrapped_phase ⟨Real.sin, Real.exp, Real.pi⟩ ⟨1, 15, 110, 28, 1 / 10, 28, 1 / 2, 0⟩ 44100
          [(0, 0, 0), (1, 0, 0)] - (c : ℝ) * (2 * Real.pi) ∧
      unwrapped_phase ⟨Real.sin, Real.exp, Real.pi⟩ ⟨1, 15, 110, 28, 1 / 10, 28, 1 / 2, 0⟩ 44100
          [(0, 0, 0), (1, 0, 0)] =
        ([((0 : Int), (0 : ℝ), (0 : ℝ)), (1, 0, 0)].map fun call =>
          2 * Real.pi * ((110 : ℝ) * Real.exp (-(28 : ℝ) * (call.1 : ℝ) / 44100)) / 44100).sum :=
  Drum_phase_modulo_two_pi ⟨1, 15, 110, 28, 1 / 10, 28, 1 / 2, 0⟩ 44100 [(0, 0, 0), (1, 0, 0)]
    (by norm_num)


section StepCases
variable {α : Type} [LinearOrderedField α]

/-- The four ways a call of `Pattern_next_frame` returns: early, onto the sentinel,
onto a voiced event, or within the current event. -/
lemma next_frame_cases {samples : List (Sample α)} {st st1 : Machine α} {i : Int} {fr : Frame α}
    (hstep : Pattern_next_frame samples st i = some (fr, st1)) :
    ∃ cur, samples[st.p.s]? = some cur ∧
      ((i < cur.frame ∧ fr = ⟨0, 0⟩ ∧ st1 = st) ∨
       (∃ nxt, samples[st.p.s + 1]? = some nxt ∧ cur.frame ≤ i ∧ nxt.frame ≤ i ∧
          nxt.fb.tab = none ∧ fr = ⟨0, 0⟩ ∧
          st1 = { st with p := { st.p with s := st.p.s + 1 } }) ∨
       (∃ nxt tab w1 w2, samples[st.p.s + 1]? = some nxt ∧ cur.frame ≤ i ∧ nxt.frame ≤ i ∧
          nxt.fb.tab = some tab ∧ tab.start st.world nxt.fb.ud = some w1 ∧
          tab.next w1 nxt.fb.ud (SAMPLE_RATE : α) 0 = some (fr, w2) ∧
          st1 = { p := { s := st.p.s + 1, frame := 1 }
                  world := w2
                  calls := st.calls ++ [Call.start (st.p.s + 1), Call.next (st.p.s + 1) 0] }) ∨
       (∃ nxt tab w, samples[st.p.s + 1]? = some nxt ∧ cur.frame ≤ i ∧ i < nxt.frame ∧
          cur.fb.tab = some tab ∧
          tab.next st.world cur.fb.ud (SAMPLE_RATE : α) st.p.frame = some (fr, w) ∧
          st1 = { p := { s := st.p.s, frame := st.p.frame + 1 }
                  world := w
                  calls := st.calls ++ [Call.next st.p.s st.p.frame] })) := by
  cases hcur : samples[st.p.s]? with
  | none => simp [Pattern_next_frame, hcur] at hstep
  | some cur =>
    refine ⟨cur, rfl, ?_⟩
    by_cases hearly : i < cur.frame
    · rw [next_frame_early hcur hearly] at hstep
      simp only [Option.some.injEq, Prod.mk.injEq] at hstep
      exact Or.inl ⟨hearly, hstep.1.symm, hstep.2.symm⟩
    · cases hnxt : samples[st.p.s + 1]? with
      | none => simp [Pattern_next_frame, hcur, hearly, hnxt] at hstep
      | some nxt =>
        by_cases hadv : i ≥ nxt.frame
        · cases htab : nxt.fb.tab with
          | none =>
            rw [next_frame_sentinel hcur hnxt (by omega) hadv htab] at hstep
            simp only [Option.some.injEq, Prod.mk.injEq] at hstep
            exact Or.inr (Or.inl ⟨nxt, rfl, by omega, hadv, htab, hstep.1.symm, hstep.2.symm⟩)
          | some tab =>
            cases hstart : tab.start st.world nxt.fb.ud with
            | none =>
              simp [Pattern_next_frame, hcur, hearly, hnxt, hadv, htab, hstart] at hstep
            | some w1 =>
              cases hnext : tab.next w1 nxt.fb.ud (SAMPLE_RATE : α) 0 with
              | none =>
                simp [Pattern_next_frame, hcur, hearly, hnxt, hadv, htab, hstart, Pattern_render,
                  hnext] at hstep
              | some r =>
                obtain ⟨fr2, w2⟩ := r
                rw [next_frame_advance hcur hnxt (by omega) hadv htab hstart hnext] at hstep
                simp only [Option.some.injEq, Prod.mk.injEq] at hstep
                refine Or.inr (Or.inr (Or.inl ⟨nxt, tab, w1, w2, rfl, by omega, hadv, htab, hstart,
                  ?_, hstep.2.symm⟩))
                rw [← hstep.1]
                exact hnext
        · cases htab : cur.fb.tab with
          | none =>
            simp [Pattern_next_frame, hcur, hearly, hnxt, hadv, Pattern_render, htab] at hstep
          | some tab =>
            cases hnext : tab.next st.world cur.fb.ud (SAMPLE_RATE : α) st.p.frame with
            | none =>
              simp [Pattern_next_frame, hcur, hearly, hnxt, hadv, Pattern_render, htab,
                hnext] at hstep
            | some r =>
              obtain ⟨fr2, w⟩ := r
              rw [next_frame_render hcur hnxt (by omega) (by omega) htab hnext] at hstep
              simp only [Option.some.injEq, Prod.mk.injEq] at hstep
              refine Or.inr (Or.inr (Or.inr ⟨nxt, tab, w, rfl, by omega, by omega, rfl, ?_,
                hstep.2.symm⟩))
              rw [← hstep.1]
              exact hnext

/-- What one returning call does to the cursor and to the record of calls: the
cursor stays or moves one event on, and the calls added are none, one `next` of the
event under the cursor after the call, or `start` and `next` of the event the
cursor moved onto; a rendered event has its offset at or before the tick. -/
lemma next_frame_effect {samples : List (Sample α)} {st st1 : Machine α} {i : Int} {fr : Frame α}
    (hstep : Pattern_next_frame samples st i = some (fr, st1)) :
    ∃ added, st1.calls = st.calls ++ added ∧
      ((st1.p.s = st.p.s ∧ (added = [] ∨ ∃ f, added = [Call.next st.p.s f])) ∨
       (st1.p.s = st.p.s + 1 ∧
         (added = [] ∨ added = [Call.start (st.p.s + 1), Call.next (st.p.s + 1) 0]))) ∧
      (∀ k f, Call.next k f ∈ added → k = st1.p.s ∧ offset samples k ≤ i) := by
  obtain ⟨cur, hcur, h⟩ := next_frame_cases hstep
  rcases h with ⟨_, _, rfl⟩ | ⟨nxt, _, _, _, _, _, rfl⟩ |
    ⟨nxt, tab, w1, w2, hnxt, _, hadv, _, _, _, rfl⟩ | ⟨nxt, tab, w, _, hlo, _, _, _, rfl⟩
  · exact ⟨[], by simp, Or.inl ⟨rfl, Or.inl rfl⟩, by simp⟩
  · exact ⟨[], by simp, Or.inr ⟨rfl, Or.inl rfl⟩, by simp⟩
  · refine ⟨_, rfl, Or.inr ⟨rfl, Or.inr rfl⟩, ?_⟩
    intro k f hmem
    have hk : k = st.p.s + 1 := by
      simp only [List.mem_cons, List.mem_singleton, List.not_mem_nil, or_false,
        Call.next.injEq] at hmem
      rcases hmem with h | h
      · exact absurd h (by simp)
      · exact h.1
    rw [hk]
    exact ⟨rfl, by rw [offset_of_getElem? hnxt]; exact hadv⟩
  · refine ⟨_, rfl, Or.inl ⟨rfl, Or.inr ⟨_, rfl⟩⟩, ?_⟩
    intro k f hmem
    simp only [List.mem_singleton, Call.next.injEq] at hmem
    obtain ⟨hk, _⟩ := hmem
    rw [hk]
    exact ⟨rfl, by rw [offset_of_getElem? hcur]; exact hlo⟩

end StepCases

/-- C12: whatever the event array, the cursor and the tick `i`, the calls a
returning call `Pattern_next_frame(p, i)` adds to the record are such that every
`next` among them goes to an event whose offset is `≤ i` (the event the cursor is
on after the call): no voice is rendered before its offset. -/
theorem Pattern_next_frame_never_renders_early {α : Type} [LinearOrderedField α]
    (samples : List (Sample α)) (st st1 : Machine α) (i : Int) (fr : Frame α)
    (hstep : Pattern_next_frame samples st i = some (fr, st1)) :
    ∃ added, st1.calls = st.calls ++ added ∧
      ∀ k f, Call.next k f ∈ added → k = st1.p.s ∧ offset samples k ≤ i := by
  obtain ⟨added, hadded, _, hnext⟩ := next_frame_effect hstep
  exact ⟨added, hadded, hnext⟩

/-- C14: for every machine whose cursor is on an event of the array and every tick
`i` smaller than the offset of that event, `Pattern_next_frame` returns the frame
`(0, 0)` and leaves the machine as it was: the cursor, the elapsed counter, the
memory of the voices (every phase, the number of noise draws) and the record of
calls, so no voice is triggered or rendered. -/
theorem Pattern_next_frame_early_is_silent {α : Type} [LinearOrderedField α]
    (samples : List (Sample α)) (st : Machine α) (i : Int)
    (hcursor : st.p.s < samples.length) (hearly : i < offset samples st.p.s) :
    Pattern_next_frame samples st i = some (⟨0, 0⟩, st) := by
  obtain ⟨cur, hcur, _⟩ := getElem?_of_lt samples hcursor
  rw [offset_of_getElem? hcur] at hearly
  exact next_frame_early hcur hearly


section StartOnce
variable {α : Type} [LinearOrderedField α]

lemma run_ticks_starts (samples : List (Sample α)) (ticks : List Int) :
    ∀ (st st1 : Machine α) (frs : List (Frame α)),
    Pattern_run_ticks samples st ticks = some (frs, st1) →
    st.p.s ≤ st1.p.s ∧
    ∃ added, st1.calls = st.calls ++ added ∧
      ∀ k, added.count (Call.start k) ≤ 1 ∧ (Call.start k ∈ added → st.p.s < k ∧ k ≤ st1.p.s) := by
  induction ticks with
  | nil =>
    intro st st1 frs hrun
    simp only [Pattern_run_ticks, Option.some.injEq, Prod.mk.injEq] at hrun
    rw [← hrun.2]
    exact ⟨le_refl _, [], by simp, fun k => by simp⟩
  | cons i rest ih =>
    intro st st1 frs hrun
    rw [Pattern_run_ticks] at hrun
    cases hstep : Pattern_next_frame samples st i with
    | none => simp [hstep] at hrun
    | some r =>
      obtain ⟨fr, st2⟩ := r
      simp only [hstep] at hrun
      cases hrest : Pattern_run_ticks samples st2 rest with
      | none => simp [hrest] at hrun
      | some r2 =>
        obtain ⟨frs2, st3⟩ := r2
        simp only [hrest, Option.some.injEq, Prod.mk.injEq] at hrun
        obtain ⟨_, rfl⟩ := hrun
        obtain ⟨hmono, added2, hcalls2, hstarts2⟩ := ih st2 st3 frs2 hrest
        obtain ⟨added1, hcalls1, hcursor, _⟩ := next_frame_effect hstep
        have hfirst : ∀ k, added1.count (Call.start k) ≤ 1 ∧
            (Call.start k ∈ added1 → k = st.p.s + 1 ∧ st2.p.s = st.p.s + 1) := by
          intro k
          rcases hcursor with ⟨_, h | ⟨f, h⟩⟩ | ⟨hs, h | h⟩
          · rw [h]; simp
          · rw [h]; simp
          · rw [h]; simp
          · rw [h]
            constructor
            · have hsplit : [Call.start (st.p.s + 1), Call.next (st.p.s + 1) 0] =
                  [Call.start (st.p.s + 1)] ++ [Call.next (st.p.s + 1) 0] := rfl
              have hnone : Call.start k ∉ [Call.next (st.p.s + 1) 0] := by simp
              rw [hsplit, List.count_append, List.count_eq_zero_of_not_mem hnone]
              exact List.count_le_length _ _
            · intro hmem
              simp only [List.mem_cons, List.mem_singleton, List.not_mem_nil, or_false,
                Call.start.injEq] at hmem
              rcases hmem with h1 | h1
              · exact ⟨h1, hs⟩
              · exact absurd h1 (by simp)
        have hle : st.p.s ≤ st2.p.s := by
          rcases hcursor with ⟨h, _⟩ | ⟨h, _⟩ <;> omega
        refine ⟨by omega, added1 ++ added2, by rw [hcalls2, hcalls1, List.append_assoc], ?_⟩
        intro k
        constructor
        · rw [List.count_append]
          by_cases hmem : Call.start k ∈ added1
          · obtain ⟨hk, hs⟩ := (hfirst k).2 hmem
            have hnot : Call.start k ∉ added2 := by
              intro h2
              have := ((hstarts2 k).2 h2).1
              omega
            rw [List.count_eq_zero_of_not_mem hnot]
            exact (hfirst k).1
          · rw [List.count_eq_zero_of_not_mem hmem]
            simpa using (hstarts2 k).1
        · intro hmem
          rcases List.mem_append.mp hmem with h1 | h2
          · obtain ⟨hk, hs⟩ := (hfirst k).2 h1
            omega
          · have := (hstarts2 k).2 h2
            omega

end StartOnce

/-- C11: over every run of `Pattern_next_frame` calls that return, whatever the
event array, the machine it starts from and the tick values, the cursor index does
not decrease, and among the calls the run adds to the record `start` occurs at
most once for each event position `k`, and only for positions the cursor moved
onto during the run. -/
theorem Pattern_starts_each_event_at_most_once {α : Type} [LinearOrderedField α]
    (samples : List (Sample α)) (st st1 : Machine α) (ticks : List Int) (frs : List (Frame α))
    (hrun : Pattern_run_ticks samples st ticks = some (frs, st1)) :
    st.p.s ≤ st1.p.s ∧
    ∃ added, st1.calls = st.calls ++ added ∧
      ∀ k, added.count (Call.start k) ≤ 1 ∧ (Call.start k ∈ added → st.p.s < k ∧ k ≤ st1.p.s) :=
  run_ticks_starts samples ticks st st1 frs hrun


/-- Witness of C11: the example `[{0, A}, {10, B}, {20, sentinel}]` with drum voices,
called with the ticks 10 and 3 from the initial cursor. -/
theorem Pattern_starts_each_event_at_most_once_witness :
    ∃ frs st1,
      Pattern_run_ticks
        (exampleEvents (FrameBuilder_drum ⟨Real.sin, Real.exp, Real.pi⟩ 2147483647 id))
        (Pattern_init ⟨fun _ => ⟨1, 15, 110, 28, 1 / 10, 28, 1 / 2, 0⟩, 0⟩) [10, 3] =
        some (frs, st1) ∧
      (Pattern_init ⟨fun _ => (⟨1, 15, 110, 28, 1 / 10, 28, 1 / 2, 0⟩ : Drum ℝ), 0⟩).p.s ≤ st1.p.s ∧
      ∃ added,
        st1.calls =
          (Pattern_init ⟨fun _ => (⟨1, 15, 110, 28, 1 / 10, 28, 1 / 2, 0⟩ : Drum ℝ), 0⟩).calls ++
            added ∧
        ∀ k, added.count (Call.start k) ≤ 1 ∧
          (Call.start k ∈ added →
            (Pattern_init ⟨fun _ => (⟨1, 15, 110, 28, 1 / 10, 28, 1 / 2, 0⟩ : Drum ℝ), 0⟩).p.s < k ∧
            k ≤ st1.p.s) := by
  have hstep := @next_frame_advance _ _
    (exampleEvents (FrameBuilder_drum ⟨Real.sin, Real.exp, Real.pi⟩ 2147483647 id))
    (Pattern_init ⟨fun _ => ⟨1, 15, 110, 28, 1 / 10, 28, 1 / 2, 0⟩, 0⟩) 10
    ⟨0, ⟨some (FrameBuilder_drum ⟨Real.sin, Real.exp, Real.pi⟩ 2147483647 id), some 0⟩⟩
    ⟨10, ⟨some (FrameBuilder_drum ⟨Real.sin, Real.exp, Real.pi⟩ 2147483647 id), some 1⟩⟩
    _ _ _ _ rfl rfl (by decide) (by decide) rfl rfl rfl
  have hex : ∃ frs st1, Pattern_run_ticks
      (exampleEvents (FrameBuilder_drum ⟨Real.sin, Real.exp, Real.pi⟩ 2147483647 id))
      (Pattern_init ⟨fun _ => ⟨1, 15, 110, 28, 1 / 10, 28, 1 / 2, 0⟩, 0⟩) [10, 3] =
        some (frs, st1) := by
    rw [Pattern_run_ticks, hstep]
    simp only [Pattern_run_ticks]
    rw [@next_frame_early _ _ _ _ 3
      ⟨10, ⟨some (FrameBuilder_drum ⟨Real.sin, Real.exp, Real.pi⟩ 2147483647 id), some 1⟩⟩
      rfl (by decide)]
    exact ⟨_, _, rfl⟩
  obtain ⟨frs, st1, hrun⟩ := hex
  exact ⟨frs, st1, hrun, Pattern_starts_each_event_at_most_once _ _ _ _ _ hrun⟩

/-- Witness of C12: tick 10 of the example from the initial cursor renders `B`, whose
offset is 10. -/
theorem Pattern_next_frame_never_renders_early_witness :
    ∃ fr st1,
      Pattern_next_frame
        (exampleEvents (FrameBuilder_drum ⟨Real.sin, Real.exp, Real.pi⟩ 2147483647 id))
        (Pattern_init ⟨fun _ => ⟨1, 15, 110, 28, 1 / 10, 28, 1 / 2, 0⟩, 0⟩) 10 = some (fr, st1) ∧
      ∃ added,
        st1.calls =
          (Pattern_init ⟨fun _ => (⟨1, 15, 110, 28, 1 / 10, 28, 1 / 2, 0⟩ : Drum ℝ), 0⟩).calls ++
            added ∧
        ∀ k f, Call.next k f ∈ added → k = st1.p.s ∧
          offset (exampleEvents (FrameBuilder_drum ⟨Real.sin, Real.exp, Real.pi⟩ 2147483647 id)) k
            ≤ 10 := by
  have hstep := @next_frame_advance _ _
    (exampleEvents (FrameBuilder_drum ⟨Real.sin, Real.exp, Real.pi⟩ 2147483647 id))
    (Pattern_init ⟨fun _ => ⟨1, 15, 110, 28, 1 / 10, 28, 1 / 2, 0⟩, 0⟩) 10
    ⟨0, ⟨some (FrameBuilder_drum ⟨Real.sin, Real.exp, Real.pi⟩ 2147483647 id), some 0⟩⟩
    ⟨10, ⟨some (FrameBuilder_drum ⟨Real.sin, Real.exp, Real.pi⟩ 2147483647 id), some 1⟩⟩
    _ _ _ _ rfl rfl (by decide) (by decide) rfl rfl rfl
  exact ⟨_, _, hstep, Pattern_next_frame_never_renders_early _ _ _ _ _ hstep⟩

/-- Witness of C14: tick 3 of the example with the cursor on `B`, whose offset is 10. -/
theorem Pattern_next_frame_early_is_silent_witness :
    Pattern_next_frame
      (exampleEvents (FrameBuilder_drum ⟨Real.sin, Real.exp, Real.pi⟩ 2147483647 id))
      ⟨⟨1, 0⟩, ⟨fun _ => ⟨1, 15, 110, 28, 1 / 10, 28, 1 / 2, 0⟩, 0⟩, []⟩ 3 =
      some (⟨0, 0⟩, ⟨⟨1, 0⟩, ⟨fun _ => ⟨1, 15, 110, 28, 1 / 10, 28, 1 / 2, 0⟩, 0⟩, []⟩) :=
  Pattern_next_frame_early_is_silent
    (exampleEvents (FrameBuilder_drum ⟨Real.sin, Real.exp, Real.pi⟩ 2147483647 id))
    ⟨⟨1, 0⟩, ⟨fun _ => ⟨1, 15, 110, 28, 1 / 10, 28, 1 / 2, 0⟩, 0⟩, []⟩ 3 (by decide) (by decide)


section GuardLemmas
variable {α : Type}

lemma length_pos_of_terminated {samples : List (Sample α)} (hterm : SentinelTerminated samples) :
    0 < samples.length := by
  have h := hterm.1
  cases samples with
  | nil => simp at h
  | cons e rest => simp

/-- On an event before the sentinel the loop condition of `main` holds. -/
lemma main_guard_voiced {samples : List (Sample α)} (hterm : SentinelTerminated samples)
    (hguard : GuardAgrees samples) (st : Machine α) (hs : st.p.s + 1 < samples.length) :
    main_guard samples st = some true := by
  obtain ⟨cur, hcur, hmem⟩ := getElem?_of_lt samples (show st.p.s < samples.length by omega)
  obtain ⟨tab, htab⟩ := tab_of_not_last hterm hs hcur
  have h := hguard cur hmem
  rw [htab] at h
  simp only [main_guard, hcur]
  rw [h]; rfl

/-- On the sentinel the loop condition of `main` fails. -/
lemma main_guard_sentinel {samples : List (Sample α)} (hterm : SentinelTerminated samples)
    (hguard : GuardAgrees samples) (st : Machine α) (hs : st.p.s + 1 = samples.length) :
    main_guard samples st = some false := by
  obtain ⟨cur, hcur, hmem⟩ := getElem?_of_lt samples (show st.p.s < samples.length by omega)
  have htab := tab_of_last hterm hs hcur
  have h := hguard cur hmem
  rw [htab] at h
  simp only [main_guard, hcur]
  rw [h]; rfl

end GuardLemmas

section LoopLemmas
variable {α : Type} [LinearOrderedField α]

/-- With the cursor on the sentinel the loop of `main` ends without a call. -/
lemma main_loop_on_sentinel {samples : List (Sample α)} (hterm : SentinelTerminated samples)
    (hguard : GuardAgrees samples) (sweep : Int → World α → World α) (fuel : Nat)
    (st : Machine α) (i : Int) (hs : st.p.s + 1 = samples.length) :
    main_loop samples sweep fuel st i = some ([], st, true) := by
  cases fuel with
  | zero => simp only [main_loop, main_guard_sentinel hterm hguard st hs]; rfl
  | succ n => simp only [main_loop, main_guard_sentinel hterm hguard st hs]

/-- From an event before the sentinel a call returns, leaves the cursor inside the
array, and only goes through the tables of events before the sentinel. -/
lemma next_frame_returns {samples : List (Sample α)} (hterm : SentinelTerminated samples)
    (hvoices : VoicesReturn samples) (st : Machine α) (i : Int)
    (hs : st.p.s + 1 < samples.length) :
    ∃ fr st1, Pattern_next_frame samples st i = some (fr, st1) ∧ st1.p.s < samples.length ∧
      ∃ added, st1.calls = st.calls ++ added ∧ ∀ c ∈ added, c.event + 1 < samples.length := by
  obtain ⟨cur, hcur, hcurmem⟩ := getElem?_of_lt samples (show st.p.s < samples.length by omega)
  obtain ⟨nxt, hnxt, hnxtmem⟩ := getElem?_of_lt samples hs
  by_cases hearly : i < cur.frame
  · exact ⟨_, _, next_frame_early hcur hearly, by omega, [], by simp, by simp⟩
  · by_cases hadv : nxt.frame ≤ i
    · cases htab : nxt.fb.tab with
      | none =>
        exact ⟨_, _, next_frame_sentinel hcur hnxt (by omega) hadv htab, hs, [], by simp,
          by simp⟩
      | some tab =>
        have hs2 : st.p.s + 1 + 1 < samples.length := by
          by_contra hcon
          have hnone := tab_of_last hterm (show st.p.s + 1 + 1 = samples.length by omega) hnxt
          rw [htab] at hnone
          exact absurd hnone (by simp)
        obtain ⟨w1, hw1⟩ := Option.isSome_iff_exists.mp ((hvoices nxt hnxtmem tab htab).1 st.world)
        obtain ⟨r, hr⟩ := Option.isSome_iff_exists.mp
          ((hvoices nxt hnxtmem tab htab).2 w1 (SAMPLE_RATE : α) 0)
        obtain ⟨fr, w2⟩ := r
        refine ⟨_, _, next_frame_advance hcur hnxt (by omega) hadv htab hw1 hr, hs, _, rfl, ?_⟩
        intro c hc
        simp only [List.mem_cons, List.mem_singleton, List.not_mem_nil, or_false] at hc
        rcases hc with rfl | rfl <;> exact hs2
    · obtain ⟨tab, htab⟩ := tab_of_not_last hterm hs hcur
      obtain ⟨r, hr⟩ := Option.isSome_iff_exists.mp
        ((hvoices cur hcurmem tab htab).2 st.world (SAMPLE_RATE : α) st.p.frame)
      obtain ⟨fr, w⟩ := r
      refine ⟨_, _, next_frame_render hcur hnxt (by omega) (by omega) htab hr, by simp only; omega,
        _, rfl, ?_⟩
      intro c hc
      simp only [List.mem_singleton] at hc
      rw [hc]; exact hs

lemma main_loop_safe {samples : List (Sample α)} (hterm : SentinelTerminated samples)
    (hguard : GuardAgrees samples) (hvoices : VoicesReturn samples)
    (sweep : Int → World α → World α) (fuel : Nat) :
    ∀ (st : Machine α) (i : Int), st.p.s < samples.length →
    (∀ c ∈ st.calls, c.event + 1 < samples.length) →
    ∃ frs st1 done, main_loop samples sweep fuel st i = some (frs, st1, done) ∧
      st1.p.s < samples.length ∧ (∀ c ∈ st1.calls, c.event + 1 < samples.length) ∧
      (done = true ↔ st1.p.s + 1 = samples.length) := by
  induction fuel with
  | zero =>
    intro st i hs hcalls
    by_cases hlast : st.p.s + 1 = samples.length
    · exact ⟨[], st, true, main_loop_on_sentinel hterm hguard sweep 0 st i hlast, hs, hcalls,
        by simp [hlast]⟩
    · have hs1 : st.p.s + 1 < samples.length := by omega
      refine ⟨[], st, false, ?_, hs, hcalls, by simp [hlast]⟩
      simp only [main_loop, main_guard_voiced hterm hguard st hs1]; rfl
  | succ n ih =>
    intro st i hs hcalls
    by_cases hlast : st.p.s + 1 = samples.length
    · exact ⟨[], st, true, main_loop_on_sentinel hterm hguard sweep (n + 1) st i hlast, hs,
        hcalls, by simp [hlast]⟩
    · have hs1 : st.p.s + 1 < samples.length := by omega
      obtain ⟨fr, st1, hstep, hs', added, hadded, hevents⟩ :=
        next_frame_returns hterm hvoices st i hs1
      obtain ⟨frs, st2, done, hloop, hs2, hcalls2, hdone⟩ :=
        ih { st1 with world := sweep i st1.world } (i + 1) hs' (by
          intro c hc
          simp only [hadded, List.mem_append] at hc
          rcases hc with h | h
          · exact hcalls c h
          · exact hevents c h)
      refine ⟨fr :: frs, st2, done, ?_, hs2, hcalls2, hdone⟩
      simp only [main_loop, main_guard_voiced hterm hguard st hs1, hstep, hloop]

end LoopLemmas

/-- C16: for every event array that ends with the sentinel, whose events before it
have a voice (table and user data, functions that return) and whose sentinel has
none, the loop of `main`, which calls `Pattern_next_frame` with the ticks
`0, 1, 2, ...` from cursor 0 and stops calling once the cursor is on the sentinel,
never faults, however many calls it is allowed: every call returns, so every event
the function reads (at the cursor and at the cursor + 1) is inside the array, the
cursor stays inside the array, every `start` and `next` goes through the table of an
event before the sentinel, and the loop has ended exactly when the cursor is on the
sentinel. -/
theorem main_loop_stays_inside_events {α : Type} [LinearOrderedField α]
    (samples : List (Sample α)) (sweep : Int → World α → World α) (w : World α) (fuel : Nat)
    (hterm : SentinelTerminated samples) (hguard : GuardAgrees samples)
    (hvoices : VoicesReturn samples) :
    ∃ frs st done, main_loop samples sweep fuel (Pattern_init w) 0 = some (frs, st, done) ∧
      st.p.s < samples.length ∧ (∀ c ∈ st.calls, c.event + 1 < samples.length) ∧
      (done = true ↔ st.p.s + 1 = samples.length) :=
  main_loop_safe hterm hguard hvoices sweep fuel (Pattern_init w) 0
    (length_pos_of_terminated hterm) (by simp [Pattern_init])


section InitSchedule
variable {α : Type}

lemma Pattern_init_on_schedule {samples : List (Sample α)} (hstrict : StrictOffsets samples)
    (hzero : offset samples 0 = 0) (hlen : 2 ≤ samples.length) (w : World α) :
    OnSchedule samples (Pattern_init w) 0 := by
  have h01 := offset_lt_of_lt hstrict (show 0 < 1 by omega) (show 1 < samples.length by omega)
  refine ⟨by simpa [Pattern_init] using hlen, ?_, ?_, ?_, ?_⟩
  · simp [Pattern_init, hzero]
  · simp [Pattern_init]
  · simp only [Pattern_init, zero_add]; omega
  · simp [Pattern_init, hzero]

end InitSchedule

section LoopSchedule
variable {α : Type} [LinearOrderedField α]

/-- One call of the loop on schedule before the offset of the sentinel: it renders,
and the machine is on schedule for the next tick whatever the sweep does. -/
lemma on_schedule_step {samples : List (Sample α)} (hterm : SentinelTerminated samples)
    (hvoices : VoicesReturn samples) (hstrict : StrictOffsets samples)
    (sweep : Int → World α → World α) (st : Machine α) (i : Int)
    (hon : OnSchedule samples st i) (hend : i < offset samples (samples.length - 1)) :
    ∃ fr st1, Pattern_next_frame samples st i = some (fr, st1) ∧
      OnSchedule samples { st1 with world := sweep i st1.world } (i + 1) ∧
      st1.calls.countP Call.isNext = st.calls.countP Call.isNext + 1 := by
  obtain ⟨hs, h1, h2, h3, hfr⟩ := hon
  obtain ⟨fr, st1, k, e, tab, w0, hstep, hk, hk1, hlo, hhi, hfr1, hcalls, _⟩ :=
    schedule_step hterm hvoices hstrict st i hs h1 h2 h3 hfr hend
  refine ⟨fr, st1, hstep, ⟨?_, ?_, ?_, ?_, ?_⟩, ?_⟩
  · simp only [hk]; exact hk1
  · simp only [hk]; omega
  · intro _; simp only [hk]; omega
  · simp only [hk]; omega
  · simp only [hk, hfr1]
  · rw [hcalls]
    split_ifs <;> simp [List.countP_append, List.countP_cons, Call.isNext]

/-- While the ticks stay before the offset of the sentinel the loop goes on: `fuel`
calls give `fuel` rendered frames and the loop has not ended. -/
lemma main_loop_before_end {samples : List (Sample α)} (hterm : SentinelTerminated samples)
    (hguard : GuardAgrees samples) (hvoices : VoicesReturn samples)
    (hstrict : StrictOffsets samples) (sweep : Int → World α → World α) (fuel : Nat) :
    ∀ (st : Machine α) (i : Int), OnSchedule samples st i →
    i + fuel ≤ offset samples (samples.length - 1) →
    ∃ frs st1, main_loop samples sweep fuel st i = some (frs, st1, false) ∧
      frs.length = fuel ∧ st1.p.s + 1 < samples.length ∧
      st1.calls.countP Call.isNext = st.calls.countP Call.isNext + fuel := by
  induction fuel with
  | zero =>
    intro st i hon _
    refine ⟨[], st, ?_, rfl, hon.1, rfl⟩
    simp only [main_loop, main_guard_voiced hterm hguard st hon.1]; rfl
  | succ n ih =>
    intro st i hon hle
    push_cast at hle
    obtain ⟨fr, st1, hstep, hon1, hcount⟩ :=
      on_schedule_step hterm hvoices hstrict sweep st i hon (by omega)
    obtain ⟨frs, st2, hloop, hlen2, hs2, hcount2⟩ :=
      ih { st1 with world := sweep i st1.world } (i + 1) hon1 (by omega)
    refine ⟨fr :: frs, st2, ?_, by simp [hlen2], hs2, ?_⟩
    · simp only [main_loop, main_guard_voiced hterm hguard st hon.1, hstep, hloop]
    · rw [hcount2]; simp only; rw [hcount]; omega

/-- From `r` ticks before the offset of the sentinel the loop makes `r` rendering
calls and one silent call, and has then ended, whatever number of further calls it
is allowed. -/
lemma main_loop_to_end {samples : List (Sample α)} (hterm : SentinelTerminated samples)
    (hguard : GuardAgrees samples) (hvoices : VoicesReturn samples)
    (hstrict : StrictOffsets samples) (sweep : Int → World α → World α) (extra : Nat)
    (r : Nat) :
    ∀ (st : Machine α) (i : Int), OnSchedule samples st i →
    i + r = offset samples (samples.length - 1) →
    ∃ frs st1, main_loop samples sweep (r + 1 + extra) st i = some (frs ++ [⟨0, 0⟩], st1, true) ∧
      frs.length = r ∧ st1.p.s + 1 = samples.length ∧
      st1.calls.countP Call.isNext = st.calls.countP Call.isNext + r := by
  induction r with
  | zero =>
    intro st i hon hi
    obtain ⟨hs, h1, h2, h3, hfr⟩ := hon
    simp only [Nat.cast_zero, add_zero] at hi
    have hlast : st.p.s + 1 = samples.length - 1 := by
      by_contra hne
      have := offset_lt_of_lt hstrict (show st.p.s + 1 < samples.length - 1 by omega)
        (by omega)
      omega
    obtain ⟨cur, hcur, _⟩ := getElem?_of_lt samples (show st.p.s < samples.length by omega)
    obtain ⟨nxt, hnxt, _⟩ := getElem?_of_lt samples hs
    have hstep := next_frame_sentinel (i := i) hcur hnxt
      (by rw [← offset_of_getElem? hcur]; exact h1)
      (by rw [← offset_of_getElem? hnxt, hlast]; omega)
      (tab_of_last hterm (by omega) hnxt)
    refine ⟨[], { st with p := { st.p with s := st.p.s + 1 }, world := sweep i st.world }, ?_,
      rfl, by simp only; omega, rfl⟩
    have hrest := main_loop_on_sentinel hterm hguard sweep extra
      { st with p := { st.p with s := st.p.s + 1 }, world := sweep i st.world } (i + 1)
      (by simp only; omega)
    rw [show 0 + 1 + extra = extra + 1 by omega]
    simp only [main_loop, main_guard_voiced hterm hguard st hs, hstep]
    rw [hrest]
    rfl
  | succ n ih =>
    intro st i hon hi
    push_cast at hi
    obtain ⟨fr, st1, hstep, hon1, hcount⟩ :=
      on_schedule_step hterm hvoices hstrict sweep st i hon (by omega)
    obtain ⟨frs, st2, hloop, hlen2, hs2, hcount2⟩ :=
      ih { st1 with world := sweep i st1.world } (i + 1) hon1 (by omega)
    refine ⟨fr :: frs, st2, ?_, by simp [hlen2], hs2, ?_⟩
    · rw [show n + 1 + 1 + extra = (n + 1 + extra) + 1 by omega]
      simp only [main_loop, main_guard_voiced hterm hguard st hon.1, hstep, hloop,
        List.cons_append]
    · rw [hcount2]; simp only; rw [hcount]; omega

end LoopSchedule

/-- C18: on an event array `e_0 .. e_m` (`m ≥ 1`) that ends with the sentinel, whose
events before it have a voice and whose offsets increase strictly from `o_0 = 0`,
the loop of `main` from cursor 0 makes exactly `o_m + 1` calls: allowed any number
`fuel ≤ o_m` of calls it makes them all, each one renders a voice, the cursor is
still before the sentinel and the loop has not ended; allowed `o_m + 1` calls or
more it makes `o_m` rendering calls followed by one call that returns the silent
frame, the cursor is then on the sentinel, reached in the call with tick `o_m`, and
the loop has ended. -/
theorem main_loop_makes_sentinel_offset_plus_one_calls {α : Type} [LinearOrderedField α]
    (samples : List (Sample α)) (sweep : Int → World α → World α) (w : World α)
    (hterm : SentinelTerminated samples) (hguard : GuardAgrees samples)
    (hvoices : VoicesReturn samples) (hstrict : StrictOffsets samples)
    (hzero : offset samples 0 = 0) (hlen : 2 ≤ samples.length) :
    ∃ n : Nat, (n : Int) = offset samples (samples.length - 1) ∧
      (∀ fuel, fuel ≤ n →
        ∃ frs st, main_loop samples sweep fuel (Pattern_init w) 0 = some (frs, st, false) ∧
          frs.length = fuel ∧ st.p.s + 1 < samples.length ∧
          st.calls.countP Call.isNext = fuel) ∧
      (∀ extra,
        ∃ frs st,
          main_loop samples sweep (n + 1 + extra) (Pattern_init w) 0 =
            some (frs ++ [⟨0, 0⟩], st, true) ∧
          frs.length = n ∧ st.p.s + 1 = samples.length ∧
          st.calls.countP Call.isNext = n) := by
  have hpos : 0 ≤ offset samples (samples.length - 1) := by
    have := offset_le_of_le hstrict (show 0 ≤ samples.length - 1 by omega) (by omega)
    omega
  obtain ⟨n, hn⟩ := Int.eq_ofNat_of_zero_le hpos
  have hinit := Pattern_init_on_schedule hstrict hzero hlen w
  refine ⟨n, hn.symm, ?_, ?_⟩
  · intro fuel hfuel
    obtain ⟨frs, st, hloop, hl, hs, hcount⟩ :=
      main_loop_before_end hterm hguard hvoices hstrict sweep fuel (Pattern_init w) 0 hinit
        (by rw [hn]; omega)
    exact ⟨frs, st, hloop, hl, hs, by rw [hcount]; simp [Pattern_init]⟩
  · intro extra
    obtain ⟨frs, st, hloop, hl, hs, hcount⟩ :=
      main_loop_to_end hterm hguard hvoices hstrict sweep extra n (Pattern_init w) 0 hinit
        (by rw [hn]; simp)
    exact ⟨frs, st, hloop, hl, hs, by rw [hcount]; simp [Pattern_init]⟩


section ExampleGuard
variable {α : Type}

lemma exampleEvents_guard (tab : FrameBuilderDefinition α) : GuardAgrees (exampleEvents tab) := by
  intro e he
  simp only [exampleEvents, List.mem_cons, List.mem_singleton, List.not_mem_nil, or_false] at he
  rcases he with rfl | rfl | rfl <;> rfl

end ExampleGuard

/-- Witness of C16: the loop of `main` on the example `[{0, A}, {10, B}, {20,
sentinel}]` with drum voices, allowed 25 calls, with a sweep of the noise decay of
`B`. -/
theorem main_loop_stays_inside_events_witness :
    ∃ frs st done,
      main_loop (exampleEvents (FrameBuilder_drum ⟨Real.sin, Real.exp, Real.pi⟩ 2147483647 id))
        (fun i w =>
          { w with drums := fun a =>
              if a = 1 then { w.drums a with noiseDecay := 10 + (i : ℝ) / 44100 } else w.drums a })
        25 (Pattern_init ⟨fun _ => ⟨1, 15, 110, 28, 1 / 10, 28, 1 / 2, 0⟩, 0⟩) 0 =
        some (frs, st, done) ∧
      st.p.s < (exampleEvents
        (FrameBuilder_drum ⟨Real.sin, Real.exp, Real.pi⟩ 2147483647 id)).length ∧
      (∀ c ∈ st.calls, c.event + 1 < (exampleEvents
        (FrameBuilder_drum ⟨Real.sin, Real.exp, Real.pi⟩ 2147483647 id)).length) ∧
      (done = true ↔ st.p.s + 1 = (exampleEvents
        (FrameBuilder_drum ⟨Real.sin, Real.exp, Real.pi⟩ 2147483647 id)).length) :=
  main_loop_stays_inside_events
    (exampleEvents (FrameBuilder_drum ⟨Real.sin, Real.exp, Real.pi⟩ 2147483647 id))
    (fun i w =>
      { w with drums := fun a =>
          if a = 1 then { w.drums a with noiseDecay := 10 + (i : ℝ) / 44100 } else w.drums a })
    ⟨fun _ => ⟨1, 15, 110, 28, 1 / 10, 28, 1 / 2, 0⟩, 0⟩ 25
    (exampleEvents_terminated _) (exampleEvents_guard _) (exampleEvents_voices _ _ _)

/-- Witness of C18: the loop of `main` on the example `[{0, A}, {10, B}, {20,
sentinel}]` with drum voices and a sweep of the noise decay of `B`. -/
theorem main_loop_makes_sentinel_offset_plus_one_calls_witness :
    ∃ n : Nat,
      (n : Int) = offset
        (exampleEvents (FrameBuilder_drum ⟨Real.sin, Real.exp, Real.pi⟩ 2147483647 id))
        ((exampleEvents (FrameBuilder_drum ⟨Real.sin, Real.exp, Real.pi⟩ 2147483647 id)).length
          - 1) ∧
      (∀ fuel, fuel ≤ n →
        ∃ frs st,
          main_loop (exampleEvents (FrameBuilder_drum ⟨Real.sin, Real.exp, Real.pi⟩ 2147483647 id))
            (fun i w =>
              { w with drums := fun a =>
                  if a = 1 then { w.drums a with noiseDecay := 10 + (i : ℝ) / 44100 }
                  else w.drums a })
            fuel (Pattern_init ⟨fun _ => ⟨1, 15, 110, 28, 1 / 10, 28, 1 / 2, 0⟩, 0⟩) 0 =
            some (frs, st, false) ∧
          frs.length = fuel ∧
          st.p.s + 1 < (exampleEvents
            (FrameBuilder_drum ⟨Real.sin, Real.exp, Real.pi⟩ 2147483647 id)).length ∧
          st.calls.countP Call.isNext = fuel) ∧
      (∀ extra,
        ∃ frs st,
          main_loop (exampleEvents (FrameBuilder_drum ⟨Real.sin, Real.exp, Real.pi⟩ 2147483647 id))
            (fun i w =>
              { w with drums := fun a =>
                  if a = 1 then { w.drums a with noiseDecay := 10 + (i : ℝ) / 44100 }
                  else w.drums a })
            (n + 1 + extra) (Pattern_init ⟨fun _ => ⟨1, 15, 110, 28, 1 / 10, 28, 1 / 2, 0⟩, 0⟩) 0 =
            some (frs ++ [⟨0, 0⟩], st, true) ∧
          frs.length = n ∧
          st.p.s + 1 = (exampleEvents
            (FrameBuilder_drum ⟨Real.sin, Real.exp, Real.pi⟩ 2147483647 id)).length ∧
          st.calls.countP Call.isNext = n) :=
  main_loop_makes_sentinel_offset_plus_one_calls
    (exampleEvents (FrameBuilder_drum ⟨Real.sin, Real.exp, Real.pi⟩ 2147483647 id))
    (fun i w =>
      { w with drums := fun a =>
          if a = 1 then { w.drums a with noiseDecay := 10 + (i : ℝ) / 44100 } else w.drums a })
    ⟨fun _ => ⟨1, 15, 110, 28, 1 / 10, 28, 1 / 2, 0⟩, 0⟩
    (exampleEvents_terminated _) (exampleEvents_guard _) (exampleEvents_voices _ _ _)
    (exampleEvents_strict _) rfl (by decide)

end Music
